import Mathlib

/-!
Verification development for the parquet_flow repository: a columnar
file-writing engine (schema model, column chunk encoding, row-group and
file writer) together with a non-blocking single-producer/single-consumer
streaming sink (ring buffer transport, batching, file rotation).

The repository ships interface headers only
(`parquet_flow_1/include/parquet_flow_c.h`, `parquet_flow_2/include/parquet_flow.h`,
`parquet_flow_3/include/parquet_flow.h`); the engine behind those
declarations is modelled here from the specification (`spec.md`).  Each
behavioural definition carries a doc comment starting `Modelled from the
spec:` naming the section of the spec it embeds.  Data declarations that do
appear verbatim in the headers (enums, structs) are translated directly from
them.
-/

set_option maxRecDepth 4000

namespace ParquetFlow

/-! ## Basic enums, translated from the headers -/

/-- Physical column types.  Translated from `parquet_flow_c.h` enum
`PF_PHYSICAL_*` (codes 0..7) and `parquet_flow_3` enum `pqflow_type`. -/
inductive PhysicalType where
  | boolean
  | int32
  | int64
  | int96
  | float
  | double
  | byteArray
  | fixedLenByteArray
deriving DecidableEq, Repr

/-- Repetition kinds.  Translated from `parquet_flow_c.h` enum
`PF_REPETITION_*` (REQUIRED = 0, OPTIONAL = 1, REPEATED = 2). -/
inductive Repetition where
  | required
  | optional
  | repeated
deriving DecidableEq, Repr

/-- Status codes.  Translated from `parquet_flow_c.h` enum `PF_STATUS_*`
and `parquet_flow_3` enum `pqflow_error`; the unified error taxonomy of
spec section 7 adds `schemaError`, `notOpen` and `full`. -/
inductive Status where
  | ok
  | invalidArgument
  | notOpen
  | internal
  | outOfMemory
  | full
  | schemaError
  | ioError
deriving DecidableEq, Repr

/-- Column definition of the unified schema model.  Translated from
`parquet_flow_3` struct `pqflow_column_def` (name, physical type,
type_length, nullable) and spec section 3 `ColumnDef` (name, physical_type,
repetition, type_length); names are modelled as lists of character codes. -/
structure ColumnDef where
  name : List Nat
  physicalType : PhysicalType
  repetition : Repetition
  typeLength : Nat
deriving DecidableEq, Repr

/-- Modelled from the spec: section 4.1 Schema Model.  `define(columns)`
fails with `InvalidArgument` iff the list is empty, has duplicate names,
has a FIXED_BYTE_ARRAY column with `type_length == 0`, or a
non-FIXED_BYTE_ARRAY column with nonzero `type_length`. -/
def defineErr (columns : List ColumnDef) : Bool :=
  columns.isEmpty
    || !(columns.map (·.name)).Nodup
    || columns.any (fun c =>
        (c.physicalType = PhysicalType.fixedLenByteArray && c.typeLength = 0)
          || (c.physicalType ≠ PhysicalType.fixedLenByteArray && c.typeLength ≠ 0))

/-- Modelled from the spec: section 4.1.  `define` returns the frozen
schema on success and `InvalidArgument` on a malformed column list. -/
def define (columns : List ColumnDef) : Except Status (List ColumnDef) :=
  if defineErr columns then .error .invalidArgument else .ok columns

/-! ## Column chunk inputs and encoding (spec sections 3, 4.2) -/

/-- Column input with optional levels.  Translated from `parquet_flow_c.h`
struct `pf_column_input_with_levels_t`: a raw byte buffer of values, optional
uint32 offsets, optional uint8 definition levels, optional uint8 repetition
levels (pointer/length pairs become lists). -/
structure ColumnInput where
  values : List Nat
  offsets : Option (List Nat)
  definitionLevels : Option (List Nat)
  repetitionLevels : Option (List Nat)
deriving DecidableEq, Repr

/-- Width in bytes of one value of a physical type (`typeLength` is the
FIXED_LEN_BYTE_ARRAY length hint); BYTE_ARRAY is variable (width 0 here,
never used on that branch). -/
def typeWidth (pt : PhysicalType) (typeLength : Nat) : Nat :=
  match pt with
  | .boolean => 1
  | .int32 => 4
  | .int64 => 8
  | .int96 => 12
  | .float => 4
  | .double => 8
  | .byteArray => 0
  | .fixedLenByteArray => typeLength

/-- Little-endian 4-byte encoding of a length (the uint32 length tag of a
variable-length value). -/
def toLE4 (n : Nat) : List Nat :=
  [n % 256, n / 256 % 256, n / 256 ^ 2 % 256, n / 256 ^ 3 % 256]

/-- Little-endian decoding of a 4-byte length tag. -/
def fromLE4 (bs : List Nat) : Nat :=
  match bs with
  | [a, b, c, d] => a + 256 * b + 256 ^ 2 * c + 256 ^ 3 * d
  | _ => 0

/-- Modelled from the spec: section 4.2, length-prefixed concatenation of
variable-length values (each value preceded by its uint32 length, little
endian). -/
def encodeSlices (ss : List (List Nat)) : List Nat :=
  (ss.map (fun s => toLE4 s.length ++ s)).flatten

/-- Slices a values buffer at consecutive offsets (`prev` is the previous
offset already consumed; `remaining` is the buffer after position `prev`). -/
def slicesGo : Nat → List Nat → List Nat → List (List Nat)
  | _, [], _ => []
  | prev, b :: rest, remaining =>
      remaining.take (b - prev) :: slicesGo b rest (remaining.drop (b - prev))

/-- Variable-length values of a BYTE_ARRAY column, cut from the values
buffer by the offsets sequence (spec section 3: offsets has length
row_count + 1 and `offsets[last] == len(values)`). -/
def byteSlices (offs : List Nat) (values : List Nat) : List (List Nat) :=
  match offs with
  | [] => []
  | a :: rest => slicesGo a rest (values.drop a)

/-- Cuts a FIXED_LEN_BYTE_ARRAY values buffer into `n` chunks of width `w`
(spec section 3: the buffer is sized row count × type width). -/
def chunksFixed : Nat → Nat → List Nat → List (List Nat)
  | 0, _, _ => []
  | n + 1, w, bs => bs.take w :: chunksFixed n w (bs.drop w)

/-- Modelled from the spec: section 4.2 `encode()` values stream —
fixed-width little-endian packing for numeric/bool types (the raw buffer is
already byte-packed), length-prefixed concatenation for
BYTE_ARRAY/FIXED_BYTE_ARRAY. -/
def encodeValuesStream (c : ColumnDef) (rowCount : Nat) (inp : ColumnInput) : List Nat :=
  match c.physicalType with
  | .byteArray => encodeSlices (byteSlices (inp.offsets.getD []) inp.values)
  | .fixedLenByteArray => encodeSlices (chunksFixed rowCount c.typeLength inp.values)
  | _ => inp.values

/-- Modelled from the spec: section 4.2 `encode()` — the values stream, then
the definition levels, then the repetition levels, then compression applied
to the whole concatenation (codec is the pluggable `encode(bytes) -> bytes`
capability). -/
def encodeChunk (compress : List Nat → List Nat) (c : ColumnDef) (rowCount : Nat)
    (inp : ColumnInput) : List Nat :=
  compress (encodeValuesStream c rowCount inp
    ++ inp.definitionLevels.getD [] ++ inp.repetitionLevels.getD [])

/-- Parses `n` length-prefixed variable-length values, requiring the input
to be consumed exactly. -/
def parseSlices : Nat → List Nat → Option (List (List Nat))
  | 0, bs => if bs.isEmpty then some [] else none
  | n + 1, bs =>
      if 4 ≤ bs.length then
        let len := fromLE4 (bs.take 4)
        let rest := bs.drop 4
        if len ≤ rest.length then
          match parseSlices n (rest.drop len) with
          | some ss => some (rest.take len :: ss)
          | none => none
        else none
      else none

/-- Rebuilds an offsets sequence from slice lengths (running sum starting at
the accumulator). -/
def offsetsGo : Nat → List (List Nat) → List Nat
  | acc, [] => [acc]
  | acc, s :: rest => acc :: offsetsGo (acc + s.length) rest

/-- Modelled from the spec: the reader side of the values stream, pairing
with `encodeValuesStream` for the declared physical type. -/
def decodeValuesStream (pt : PhysicalType) (typeLength rowCount : Nat) (bs : List Nat) :
    Option (List Nat × Option (List Nat)) :=
  match pt with
  | .byteArray => (parseSlices rowCount bs).map (fun ss => (ss.flatten, some (offsetsGo 0 ss)))
  | .fixedLenByteArray => (parseSlices rowCount bs).map (fun ss => (ss.flatten, none))
  | pt => if bs.length = rowCount * typeWidth pt typeLength then some (bs, none) else none

/-- Number of repetition-level bytes of a chunk: `rowCount` when the column
is REPEATED (spec section 3), otherwise none. -/
def repLevelCount (rep : Repetition) (rowCount : Nat) : Nat :=
  if rep = .repeated then rowCount else 0

/-- Number of definition-level bytes of a chunk: `rowCount` when the column
is not REQUIRED (spec section 3), otherwise none. -/
def defLevelCount (rep : Repetition) (rowCount : Nat) : Nat :=
  if rep = .required then 0 else rowCount

/-- Splits a byte stream into its body and its last `k` bytes. -/
def stripTail (k : Nat) (bs : List Nat) : List Nat × List Nat :=
  (bs.take (bs.length - k), bs.drop (bs.length - k))

/-- Modelled from the spec: the reader pairing with `encodeChunk` — it
decompresses, strips repetition then definition levels from the tail (their
lengths are `rowCount` when present, spec section 3), and decodes the values
stream using the declared physical type and repetition. -/
def decodeChunk (decompress : List Nat → List Nat) (c : ColumnDef) (rowCount : Nat)
    (bytes : List Nat) : Option ColumnInput :=
  let b := decompress bytes
  if repLevelCount c.repetition rowCount + defLevelCount c.repetition rowCount ≤ b.length then
    let p1 := stripTail (repLevelCount c.repetition rowCount) b
    let p2 := stripTail (defLevelCount c.repetition rowCount) p1.1
    match decodeValuesStream c.physicalType c.typeLength rowCount p2.1 with
    | some (values, offsets) =>
        some { values := values, offsets := offsets,
               definitionLevels := if c.repetition = .required then none else some p2.2,
               repetitionLevels := if c.repetition = .repeated then some p1.2 else none }
    | none => none
  else none

/-- Modelled from the spec: section 3 invariants of the values buffer and
offsets — BYTE_ARRAY carries offsets of length row_count + 1, starting at 0,
nondecreasing, ending at the buffer length, each a uint32; every other type
carries a dense buffer of row_count × width bytes and no offsets. -/
def validValues (c : ColumnDef) (rowCount : Nat) (values : List Nat)
    (offsets : Option (List Nat)) : Prop :=
  match c.physicalType, offsets with
  | .byteArray, some offs =>
      offs.head? = some 0 ∧ offs.getLast? = some values.length ∧
      offs.Chain' (· ≤ ·) ∧ offs.length = rowCount + 1 ∧ ∀ o ∈ offs, o < 2 ^ 32
  | .byteArray, none => False
  | pt, none => values.length = rowCount * typeWidth pt c.typeLength ∧ c.typeLength < 2 ^ 32
  | _, some _ => False

/-- Modelled from the spec: section 3 level invariants — definition levels
(uint8, length row_count) are present iff repetition ≠ REQUIRED; repetition
levels (uint8, length row_count) are present iff repetition = REPEATED. -/
def validLevels (rep : Repetition) (rowCount : Nat)
    (dl rl : Option (List Nat)) : Prop :=
  match rep, dl, rl with
  | .required, none, none => True
  | .optional, some d, none => d.length = rowCount ∧ ∀ b ∈ d, b < 256
  | .repeated, some d, some r =>
      d.length = rowCount ∧ (∀ b ∈ d, b < 256) ∧ r.length = rowCount ∧ ∀ b ∈ r, b < 256
  | _, _, _ => False

/-- Modelled from the spec: a valid column input — byte-valued buffers with
the section 3 length/offset/level invariants for the column's declared
physical type and repetition. -/
def validInput (c : ColumnDef) (rowCount : Nat) (inp : ColumnInput) : Prop :=
  (∀ b ∈ inp.values, b < 256) ∧
  validValues c rowCount inp.values inp.offsets ∧
  validLevels c.repetition rowCount inp.definitionLevels inp.repetitionLevels

/-! ## Chunk statistics (spec section 4.2) -/

/-- Unsigned little-endian integer value of a byte sequence. -/
def natOfLE : List Nat → Nat
  | [] => 0
  | b :: rest => b + 256 * natOfLE rest

/-- Signed (two's complement) little-endian value of a `w`-byte sequence. -/
def sintOfLE (w : Nat) (bs : List Nat) : Int :=
  let n := natOfLE bs
  if n < 2 ^ (8 * w - 1) then (n : Int) else (n : Int) - 2 ^ (8 * w)

/-- Total-order key for an IEEE-style `w`-byte floating value given by its
bit pattern: the sign bit flips the order of the magnitude bits, matching
the numeric order of non-NaN floats. -/
def floatKeyLE (w : Nat) (bs : List Nat) : Int :=
  let n := natOfLE bs
  if n < 2 ^ (8 * w - 1) then (n : Int) else (2 ^ (8 * w - 1) : Int) - (n : Int)

/-- Lexicographic byte order for variable-length values. -/
def lexLe : List Nat → List Nat → Bool
  | [], _ => true
  | _ :: _, [] => false
  | a :: as, b :: bs => if a < b then true else if b < a then false else lexLe as bs

/-- Modelled from the spec: section 4.2 "type-ordered comparison" used by
the per-chunk min/max statistics, on the byte representation of one value
of the column's physical type. -/
def valLe (pt : PhysicalType) (a b : List Nat) : Bool :=
  match pt with
  | .boolean => decide (natOfLE a ≤ natOfLE b)
  | .int32 => decide (sintOfLE 4 a ≤ sintOfLE 4 b)
  | .int64 => decide (sintOfLE 8 a ≤ sintOfLE 8 b)
  | .int96 => decide (sintOfLE 12 a ≤ sintOfLE 12 b)
  | .float => decide (floatKeyLE 4 a ≤ floatKeyLE 4 b)
  | .double => decide (floatKeyLE 8 a ≤ floatKeyLE 8 b)
  | .byteArray => lexLe a b
  | .fixedLenByteArray => lexLe a b

/-- Per-chunk statistics.  Modelled from the spec: section 4.2 — min/max by
type-ordered comparison, null count; distinct value count is an explicit
non-goal and is absent. -/
structure ColumnStats where
  nullCount : Nat
  minValue : Option (List Nat)
  maxValue : Option (List Nat)
deriving DecidableEq, Repr

/-- Modelled from the spec: one step of the statistics accumulation — a
value whose definition level is 0 is a null (counted, excluded from
min/max); any other value enters the running min/max. -/
def statsStep (pt : PhysicalType) (st : ColumnStats) (lv : Nat) (v : List Nat) : ColumnStats :=
  if lv = 0 then { st with nullCount := st.nullCount + 1 }
  else
    { nullCount := st.nullCount,
      minValue := some (match st.minValue with
        | none => v
        | some m => if valLe pt v m then v else m),
      maxValue := some (match st.maxValue with
        | none => v
        | some m => if valLe pt m v then v else m) }

/-- The per-row values of a column input, cut from the raw buffer by the
column's physical type (offsets for BYTE_ARRAY, fixed width otherwise). -/
def extractValues (c : ColumnDef) (rowCount : Nat) (inp : ColumnInput) : List (List Nat) :=
  match c.physicalType with
  | .byteArray => byteSlices (inp.offsets.getD []) inp.values
  | pt => chunksFixed rowCount (typeWidth pt c.typeLength) inp.values

/-- Definition levels of a chunk; a column without levels has every row
present (spec section 3: REQUIRED carries no null representation). -/
def levelsOf (rowCount : Nat) (inp : ColumnInput) : List Nat :=
  match inp.definitionLevels with
  | some d => d
  | none => List.replicate rowCount 1

/-- Modelled from the spec: section 4.2 statistics captured per chunk,
computed by one pass over the (definition level, value) pairs. -/
def chunkStats (c : ColumnDef) (rowCount : Nat) (inp : ColumnInput) : ColumnStats :=
  ((levelsOf rowCount inp).zip (extractValues c rowCount inp)).foldl
    (fun st p => statsStep c.physicalType st p.1 p.2) ⟨0, none, none⟩

/-- The values among (level, value) pairs whose definition level is
nonzero. -/
def presentOf (pairs : List (Nat × List Nat)) : List (List Nat) :=
  (pairs.filter (fun p => p.1 ≠ 0)).map (·.2)

/-- The values of the non-null rows of a chunk (definition level ≠ 0). -/
def presentValues (c : ColumnDef) (rowCount : Nat) (inp : ColumnInput) : List (List Nat) :=
  presentOf ((levelsOf rowCount inp).zip (extractValues c rowCount inp))

/-- Specification-side characterisation of a minimum: the witness is one of
the values and is a lower bound for the type order. -/
def isMinOf (pt : PhysicalType) (m : Option (List Nat)) (vs : List (List Nat)) : Prop :=
  match m with
  | none => vs = []
  | some m => m ∈ vs ∧ ∀ v ∈ vs, valLe pt m v = true

/-- Specification-side characterisation of a maximum. -/
def isMaxOf (pt : PhysicalType) (m : Option (List Nat)) (vs : List (List Nat)) : Prop :=
  match m with
  | none => vs = []
  | some m => m ∈ vs ∧ ∀ v ∈ vs, valLe pt v m = true

/-! ## File writer (spec sections 3, 4.3, 4.4) -/

/-- Writer lifecycle states.  Modelled from the spec: section 4.4
`Created → SchemaSet → Open → Closed`. -/
inductive WriterPhase where
  | created
  | schemaSet
  | opened
  | closed
deriving DecidableEq, Repr

/-- One columnar batch handed to `pf_writer_write_row_group`: a row count
and one column input per schema column (from `parquet_flow_c.h`). -/
structure RowBatch where
  rowCount : Nat
  columns : List ColumnInput
deriving DecidableEq, Repr

/-- Metadata of one written row group.  Modelled from the spec: section 3
RowGroup — row count, per-column chunk statistics, file offset and size. -/
structure RowGroupMeta where
  rowCount : Nat
  columnStats : List ColumnStats
  byteOffset : Nat
  totalSize : Nat
deriving DecidableEq, Repr

/-- Footer contents.  Modelled from the spec: section 3 FileMetadata —
the schema plus every row group's metadata, serialized once at close. -/
structure FileMeta where
  schema : List ColumnDef
  rowGroups : List RowGroupMeta
deriving DecidableEq, Repr

/-- File writer state (the engine behind the opaque `pf_writer_handle_t`).
Modelled from the spec: sections 4.3 and 4.4. -/
structure Writer where
  phase : WriterPhase
  schema : List ColumnDef
  meta : List RowGroupMeta
  bytesWritten : Nat
deriving DecidableEq, Repr

/-- A fresh writer handle (`pf_writer_create`). -/
def pf_writer_create : Writer :=
  { phase := .created, schema := [], meta := [], bytesWritten := 0 }

/-- Modelled from the spec: sections 4.1 and 4.4 — the schema is set exactly
once, before `open`; a redefinition attempt fails with `SchemaError`. -/
def pf_writer_set_schema (w : Writer) (columns : List ColumnDef) : Status × Writer :=
  match w.phase with
  | .created =>
      match define columns with
      | .ok s => (.ok, { w with phase := .schemaSet, schema := s })
      | .error e => (e, w)
  | _ => (.schemaError, w)

/-- Length of the format magic marker written at open and at close. -/
def magicLen : Nat := 4

/-- Modelled from the spec: section 4.4 — `open()` writes the magic header
and is valid only from `SchemaSet`. -/
def pf_writer_open (w : Writer) : Status × Writer :=
  match w.phase with
  | .schemaSet => (.ok, { w with phase := .opened, bytesWritten := w.bytesWritten + magicLen })
  | _ => (.notOpen, w)

/-- Encoded bytes of one row group: each column chunk in schema order
(spec section 4.3). -/
def rowGroupBytes (compress : List Nat → List Nat) (schema : List ColumnDef)
    (b : RowBatch) : List Nat :=
  ((schema.zip b.columns).map (fun p => encodeChunk compress p.1 b.rowCount p.2)).flatten

/-- Metadata recorded for one row group write (spec section 4.3). -/
def rowGroupMetaOf (compress : List Nat → List Nat) (schema : List ColumnDef)
    (b : RowBatch) (offset : Nat) : RowGroupMeta :=
  { rowCount := b.rowCount,
    columnStats := (schema.zip b.columns).map (fun p => chunkStats p.1 b.rowCount p.2),
    byteOffset := offset,
    totalSize := (rowGroupBytes compress schema b).length }

/-- Modelled from the spec: section 4.3 `write_row_group` — valid only in
`Open`; requires one column input per schema column; encodes every chunk,
advances the file offset, and appends the group's metadata to the footer
accumulator. -/
def pf_writer_write_row_group (compress : List Nat → List Nat) (w : Writer)
    (b : RowBatch) : Status × Writer :=
  match w.phase with
  | .opened =>
      if b.columns.length = w.schema.length then
        (.ok, { w with
                 meta := w.meta ++ [rowGroupMetaOf compress w.schema b w.bytesWritten],
                 bytesWritten := w.bytesWritten + (rowGroupBytes compress w.schema b).length })
      else (.invalidArgument, w)
  | _ => (.notOpen, w)

/-- Modelled from the spec: section 4.4 — `close()` serializes FileMetadata
and the magic footer, is terminal, and fails with `NotOpen` before
`open()`. -/
def pf_writer_close (w : Writer) : Status × Writer :=
  match w.phase with
  | .opened => (.ok, { w with phase := .closed, bytesWritten := w.bytesWritten + magicLen })
  | _ => (.notOpen, w)

/-- The footer a closed writer serialized (spec section 3 FileMetadata). -/
def footerOf (w : Writer) : FileMeta :=
  { schema := w.schema, rowGroups := w.meta }

/-- One operation of the file-writer API surface. -/
inductive WriterOp where
  | setSchema (columns : List ColumnDef)
  | openFile
  | writeRowGroup (b : RowBatch)
  | closeFile
deriving Repr

/-- One step of the file-writer lifecycle state machine. -/
def writerStep (compress : List Nat → List Nat) (w : Writer) (op : WriterOp) : Status × Writer :=
  match op with
  | .setSchema columns => pf_writer_set_schema w columns
  | .openFile => pf_writer_open w
  | .writeRowGroup b => pf_writer_write_row_group compress w b
  | .closeFile => pf_writer_close w

/-- Runs a sequence of writer operations, threading the state. -/
def writerRun (compress : List Nat → List Nat) (w : Writer) (ops : List WriterOp) : Writer :=
  ops.foldl (fun s op => (writerStep compress s op).2) w

/-- A batch valid for a schema: one input per column, each satisfying the
section 3 invariants for its column at the batch's row count. -/
def validBatch (schema : List ColumnDef) (b : RowBatch) : Prop :=
  b.columns.length = schema.length ∧
  ∀ p ∈ schema.zip b.columns, validInput p.1 b.rowCount p.2

/-! ## Ring buffer transport (spec sections 3, 4.5) -/

/-- A record handed to the transport: an opaque byte blob (spec section 3
Record). -/
def Rec : Type := List Nat
deriving instance DecidableEq, Repr, Inhabited for Rec

/-- Fixed-capacity circular slot array with monotone head/tail counters;
slot index is counter mod size (power-of-two masking, spec section 4.5).
Modelled from the spec: section 3 RingSlot — producer writes the tail slot,
consumer reads the head slot, one slot is kept unused so a full buffer
holds `size - 1` records. -/
structure Ring where
  size : Nat
  slots : List Rec
  head : Nat
  tail : Nat
deriving DecidableEq, Repr

/-- An empty ring of capacity `size`. -/
def initRing (size : Nat) : Ring :=
  { size := size, slots := List.replicate size [], head := 0, tail := 0 }

/-- Number of unconsumed records held. -/
def ringCount (r : Ring) : Nat := r.tail - r.head

/-- Structural well-formedness of a ring: the slot array has the declared
size, the counters are ordered, and at least one slot is kept free. -/
def RingInv (r : Ring) : Prop :=
  r.slots.length = r.size ∧ r.head ≤ r.tail ∧ r.tail - r.head ≤ r.size - 1 ∧ 0 < r.size

/-- Modelled from the spec: section 4.5 `push` — non-blocking; if the buffer
is full (the next tail slot would collide with the head, i.e. it already
holds `size - 1` records) it returns `Full` and drops the record, never
overwriting unread data; otherwise it writes the tail slot and advances the
tail. -/
def ringPush (r : Ring) (x : Rec) : Status × Ring :=
  if r.tail - r.head = r.size - 1 then (.full, r)
  else (.ok, { r with slots := r.slots.set (r.tail % r.size) x, tail := r.tail + 1 })

/-- Modelled from the spec: section 4.5 `pop_blocking` — the consumer takes
the head slot when one is available (blocking is a scheduling concern; the
state transition is: read head slot, advance head). -/
def ringPop (r : Ring) : Option (Rec × Ring) :=
  if r.head = r.tail then none
  else some (r.slots.getD (r.head % r.size) [], { r with head := r.head + 1 })

/-- The records currently held, from head to tail. -/
def ringContents (r : Ring) : List Rec :=
  (List.range (r.tail - r.head)).map (fun i => r.slots.getD ((r.head + i) % r.size) [])

/-- Transport state with its observable history: the records accepted by
`push` in order, and the records the consumer has popped in order. -/
structure Transport where
  ring : Ring
  pushedOk : List Rec
  popped : List Rec
deriving DecidableEq, Repr

/-- Modelled from the spec: section 4.5 — the push/pop step relation of the
single-producer/single-consumer transport (one producer step or one
consumer step at a time). -/
inductive TransportStep : Transport → Transport → Prop
  | pushOk (t : Transport) (x : Rec) (r' : Ring)
      (h : ringPush t.ring x = (.ok, r')) :
      TransportStep t { ring := r', pushedOk := t.pushedOk ++ [x], popped := t.popped }
  | pushFull (t : Transport) (x : Rec)
      (h : ringPush t.ring x = (.full, t.ring)) :
      TransportStep t t
  | pop (t : Transport) (x : Rec) (r' : Ring)
      (h : ringPop t.ring = some (x, r')) :
      TransportStep t { ring := r', pushedOk := t.pushedOk, popped := t.popped ++ [x] }

/-- States reachable from the empty transport of capacity `size`. -/
inductive TransportReach (size : Nat) : Transport → Prop
  | init : TransportReach size { ring := initRing size, pushedOk := [], popped := [] }
  | step (t t' : Transport) (ht : TransportReach size t) (hs : TransportStep t t') :
      TransportReach size t'

/-! ## Streaming sink controller (spec section 4.6) -/

/-- Sink lifecycle states.  Modelled from the spec: section 4.6
`Created → SchemaSet → Started → Running ⇄ Flushing → Stopped` (running and
flushing are scheduling refinements of started). -/
inductive SinkPhase where
  | created
  | schemaSet
  | started
  | stopped
deriving DecidableEq, Repr

/-- Streaming sink state (behind `pqflow_sink_t` / `PfSink`): ring, staging
buffer, batching threshold, rotation policy, produced files (as row-group
row-count lists) and the observable counters. -/
structure Sink where
  phase : SinkPhase
  schema : List ColumnDef
  ring : Ring
  batchSize : Nat
  maxRowsPerFile : Nat
  staged : List Rec
  closedFiles : List (List Nat)
  currentGroups : List Nat
  currentRows : Nat
  currentFileOpen : Bool
  filesWritten : Nat
  entriesWritten : Nat
deriving DecidableEq, Repr

/-- A fresh sink from its configuration (`pqflow_create` /
`pf_sink_create`): initial output file open, rotation sequence at 0. -/
def pqflow_create (ringSize batchSize maxRowsPerFile : Nat) : Sink :=
  { phase := .created, schema := [], ring := initRing ringSize,
    batchSize := batchSize, maxRowsPerFile := maxRowsPerFile,
    staged := [], closedFiles := [], currentGroups := [], currentRows := 0,
    currentFileOpen := true, filesWritten := 0, entriesWritten := 0 }

/-- Modelled from the spec: section 4.6 — the schema is set once before any
write; afterwards any mutation attempt fails with `SchemaError`. -/
def pqflow_set_schema (s : Sink) (columns : List ColumnDef) : Status × Sink :=
  match s.phase with
  | .created =>
      match define columns with
      | .ok sch => (.ok, { s with phase := .schemaSet, schema := sch })
      | .error e => (e, s)
  | _ => (.schemaError, s)

/-- Modelled from the spec: section 4.6 `start()` — spawns the consumer;
valid only from `SchemaSet`. -/
def pf_sink_start (s : Sink) : Status × Sink :=
  match s.phase with
  | .schemaSet => (.ok, { s with phase := .started })
  | _ => (.notOpen, s)

/-- Closes the current output file: its row groups join the closed files
and `files_written` increments (spec sections 4.4 and 4.6). -/
def sinkCloseFile (s : Sink) : Sink :=
  if s.currentFileOpen then
    { s with closedFiles := s.closedFiles ++ [s.currentGroups],
             currentGroups := [], currentRows := 0,
             currentFileOpen := false, filesWritten := s.filesWritten + 1 }
  else s

/-- Opens the next output file of the rotation sequence (spec section
4.6). -/
def sinkOpenNextFile (s : Sink) : Sink :=
  { s with currentGroups := [], currentRows := 0, currentFileOpen := true }

/-- Modelled from the spec: section 4.6 — writing one row group of `k`
staged rows against the open file; if `max_rows_per_file > 0` and the open
file's cumulative row count would exceed it, the current file is closed and
a new file opened first. -/
def sinkWriteGroup (s : Sink) (k : Nat) : Sink :=
  let s :=
    if 0 < s.maxRowsPerFile ∧ s.maxRowsPerFile < s.currentRows + k then
      sinkOpenNextFile (sinkCloseFile s)
    else s
  { s with currentGroups := s.currentGroups ++ [k],
           currentRows := s.currentRows + k,
           entriesWritten := s.entriesWritten + k }

/-- Modelled from the spec: section 4.6 drain loop — the consumer stages one
record; once the staged row count reaches `batch_size` it writes a row
group and resets the staging buffer. -/
def sinkConsumeOne (s : Sink) (x : Rec) : Sink :=
  let staged := s.staged ++ [x]
  if staged.length = s.batchSize then
    { sinkWriteGroup s staged.length with staged := [] }
  else { s with staged := staged }

/-- The consumer drains a stream of records in order (spec section 4.6
drain loop, records delivered in push order by the transport). -/
def sinkRunStream (s : Sink) (records : List Rec) : Sink :=
  records.foldl sinkConsumeOne s

/-- Modelled from the spec: section 4.6 `stop()` — drains the remainder as a
final forced batch (per `flush()` semantics) and stops; idempotent on an
already-stopped sink. -/
def pf_sink_stop (s : Sink) : Sink :=
  if s.phase = .stopped then s
  else
    let s := if s.staged = [] then s
             else { sinkWriteGroup s s.staged.length with staged := [] }
    { s with phase := .stopped }

/-- Modelled from the spec: section 4.6 `destroy()` — if not already
stopped, performs `stop()`, then closes the current file and releases
resources. -/
def pf_sink_destroy (s : Sink) : Sink :=
  sinkCloseFile (pf_sink_stop s)

/-- Modelled from the spec: section 4.6 — handle-level `destroy` mirroring
the header contract "safe to call with NULL (no-op)". -/
def pqflow_destroy (h : Option Sink) : Option Sink :=
  match h with
  | none => none
  | some s => some (pf_sink_destroy s)

/-- Modelled from the spec: section 4.6 `log(record)` — delegates to the
ring buffer push; returns `Full` on backpressure; accepted only while
started. -/
def pqflow_log (s : Sink) (x : Rec) : Status × Sink :=
  match s.phase with
  | .started =>
      match ringPush s.ring x with
      | (.ok, r') => (.ok, { s with ring := r' })
      | (st, _) => (st, s)
  | _ => (.notOpen, s)

/-- The consumer side pops one buffered record from the sink's ring. -/
def sinkPopRing (s : Sink) : Option (Rec × Sink) :=
  (ringPop s.ring).map (fun p => (p.1, { s with ring := p.2 }))

/-- Row-group row counts of every produced file, closed files first then
the still-open file. -/
def sinkAllFiles (s : Sink) : List (List Nat) :=
  s.closedFiles ++ (if s.currentFileOpen then [s.currentGroups] else [])

/-! ## The `parquet_flow_2` column-definition surface -/

/-- Column type enum of `parquet_flow_2/include/parquet_flow.h`
(`PfColumnType`): BOOLEAN 0, INT32 1, INT64 2, FLOAT 4, DOUBLE 5,
BYTE_ARRAY 6 — translated verbatim from the header. -/
inductive PfColumnType where
  | pfBoolean
  | pfInt32
  | pfInt64
  | pfFloat
  | pfDouble
  | pfByteArray
deriving DecidableEq, Repr

/-- Column definition struct of `parquet_flow_2` (`PfColumnDef`): name,
column type, and a required/optional flag — translated verbatim from the
header (no type_length field, no REPEATED flag). -/
structure PfColumnDef where
  name : List Nat
  colType : PfColumnType
  required : Bool
deriving DecidableEq, Repr

/-- The physical type denoted by a `PfColumnType` code (the codes match the
unified physical-type codes of `parquet_flow_c.h`). -/
def pfTypeToPhysical : PfColumnType → PhysicalType
  | .pfBoolean => .boolean
  | .pfInt32 => .int32
  | .pfInt64 => .int64
  | .pfFloat => .float
  | .pfDouble => .double
  | .pfByteArray => .byteArray

/-- The unified schema column constructed from a `PfColumnDef` by
`pf_writer_create` / `pf_sink_create` of the variant-2 API. -/
def pfColumnToDef (c : PfColumnDef) : ColumnDef :=
  { name := c.name,
    physicalType := pfTypeToPhysical c.colType,
    repetition := if c.required then .required else .optional,
    typeLength := 0 }

/-! ## Specification-side statements used by the claims -/

/-- Chunk statistics match the directly computed statistics of the input:
null count is the number of zero definition levels, min/max are values of
the chunk bounding all present values in the type order. -/
def statsMatch (c : ColumnDef) (rowCount : Nat) (inp : ColumnInput) (st : ColumnStats) : Prop :=
  st.nullCount = (levelsOf rowCount inp).countP (fun l => l == 0) ∧
  isMinOf c.physicalType st.minValue (presentValues c rowCount inp) ∧
  isMaxOf c.physicalType st.maxValue (presentValues c rowCount inp)

/-- A footer row-group entry matches the batch it was written from. -/
def groupMatches (schema : List ColumnDef) (b : RowBatch) (gm : RowGroupMeta) : Prop :=
  gm.rowCount = b.rowCount ∧
  gm.columnStats.length = schema.length ∧
  ∀ q ∈ gm.columnStats.zip (schema.zip b.columns), statsMatch q.2.1 b.rowCount q.2.2 q.1

/-- The batch-writer pipeline: create, set schema, open, write every batch,
close (spec sections 4.3 and 4.4 used directly in synchronous mode). -/
def writerPipeline (compress : List Nat → List Nat) (schema : List ColumnDef)
    (batches : List RowBatch) : Status × Writer :=
  pf_writer_close
    (batches.foldl (fun w b => (pf_writer_write_row_group compress w b).2)
      (pf_writer_open (pf_writer_set_schema pf_writer_create schema).2).2)

/-- A full streaming run to completion: the consumer drains the stream,
then the sink is stopped (final forced batch) and destroyed (current file
closed) — spec section 4.6. -/
def pf_sink_run (s : Sink) (records : List Rec) : Sink :=
  pf_sink_destroy (sinkRunStream s records)

/-- Sample schema for concrete instantiations: the spec section 8 scenario
`[{"id", I64, REQUIRED}, {"name", BYTE_ARRAY, OPTIONAL}]` (names as
character codes). -/
def sampleSchema : List ColumnDef :=
  [{ name := [105, 100], physicalType := .int64, repetition := .required, typeLength := 0 },
   { name := [110, 97, 109, 101], physicalType := .byteArray, repetition := .optional,
     typeLength := 0 }]

/-- Sample batch for concrete instantiations: rows `[(1, "a"), (2, null)]`
of the spec section 8 scenario. -/
def sampleBatch : RowBatch :=
  { rowCount := 2,
    columns :=
      [{ values := [1, 0, 0, 0, 0, 0, 0, 0, 2, 0, 0, 0, 0, 0, 0, 0],
         offsets := none, definitionLevels := none, repetitionLevels := none },
       { values := [97], offsets := some [0, 1, 1],
         definitionLevels := some [1, 0], repetitionLevels := none }]}

/-- Sample optional INT32 column input for the encode/decode round trip. -/
def sampleInput : ColumnInput :=
  { values := [1, 0, 0, 0, 2, 0, 0, 0], offsets := none,
    definitionLevels := some [1, 0], repetitionLevels := none }

/-- Sample column definition owning `sampleInput`. -/
def sampleColumn : ColumnDef :=
  { name := [118], physicalType := .int32, repetition := .optional, typeLength := 0 }

/-- The transport invariant: the ring is well formed, and the records the
consumer has observed followed by the records still buffered are exactly
the successfully pushed records, in push order. -/
def TransportInv (size : Nat) (t : Transport) : Prop :=
  RingInv t.ring ∧ t.ring.size = size ∧ t.popped ++ ringContents t.ring = t.pushedOk

/-- Invariant of the streaming sink after the consumer has processed `m`
records, for batch size `b` and row cap `R`: batching below threshold,
every closed file holds exactly `R` rows, the open file holds at most `R`
rows in whole batches, counters agree, and every record is accounted
for. -/
def SinkInv (b R m : Nat) (s : Sink) : Prop :=
  s.batchSize = b ∧
  s.maxRowsPerFile = R ∧
  s.phase = .started ∧
  s.currentFileOpen = true ∧
  s.staged.length < b ∧
  (∀ f ∈ s.closedFiles, f.sum = R) ∧
  s.currentRows ≤ R ∧
  b ∣ s.currentRows ∧
  s.currentRows = s.currentGroups.sum ∧
  (s.currentRows = 0 → s.closedFiles = [] ∧ s.currentGroups = []) ∧
  s.filesWritten = s.closedFiles.length ∧
  s.closedFiles.length * R + s.currentRows + s.staged.length = m

/-! ## Round-trip lemmas for the chunk encoding -/

theorem fromLE4_toLE4 (n : Nat) (h : n < 2 ^ 32) : fromLE4 (toLE4 n) = n := by
  simp only [toLE4, fromLE4]
  omega

theorem parseSlices_encodeSlices (ss : List (List Nat))
    (h : ∀ s ∈ ss, s.length < 2 ^ 32) :
    parseSlices ss.length (encodeSlices ss) = some ss := by
  induction ss with
  | nil => simp [parseSlices, encodeSlices]
  | cons s rest ih =>
      have hs : s.length < 2 ^ 32 := h s (by simp)
      have henc : encodeSlices (s :: rest) = toLE4 s.length ++ (s ++ encodeSlices rest) := by
        simp [encodeSlices]
      have hlen4 : (toLE4 s.length).length = 4 := by simp [toLE4]
      rw [List.length_cons, henc]
      rw [parseSlices]
      have h4 : 4 ≤ (toLE4 s.length ++ (s ++ encodeSlices rest)).length := by
        simp [hlen4]
      rw [if_pos h4]
      have htake : (toLE4 s.length ++ (s ++ encodeSlices rest)).take 4 = toLE4 s.length := by
        rw [← hlen4]; exact List.take_left _ _
      have hdrop : (toLE4 s.length ++ (s ++ encodeSlices rest)).drop 4 = s ++ encodeSlices rest := by
        rw [← hlen4]; exact List.drop_left _ _
      simp only [htake, hdrop, fromLE4_toLE4 s.length hs]
      have hle : s.length ≤ (s ++ encodeSlices rest).length := by simp
      rw [if_pos hle]
      rw [List.drop_left, List.take_left]
      rw [ih (fun t ht => h t (by simp [ht]))]

theorem length_slicesGo (rest : List Nat) (prev : Nat) (remaining : List Nat) :
    (slicesGo prev rest remaining).length = rest.length := by
  induction rest generalizing prev remaining with
  | nil => simp [slicesGo]
  | cons b rest ih => simp [slicesGo, ih]

theorem chain_le_getLast (rest : List Nat) (prev L : Nat)
    (hc : List.Chain' (· ≤ ·) (prev :: rest))
    (hL : (prev :: rest).getLast? = some L) : prev ≤ L := by
  induction rest generalizing prev with
  | nil =>
      simp only [List.getLast?_singleton, Option.some.injEq] at hL
      omega
  | cons b rest ih =>
      rw [List.chain'_cons] at hc
      have h1 : prev ≤ b := hc.1
      have h2 : b ≤ L := by
        apply ih b
        · exact hc.2
        · rw [← hL, List.getLast?_cons_cons]
      omega

theorem flatten_slicesGo (rest : List Nat) (prev : Nat) (remaining : List Nat)
    (hc : List.Chain' (· ≤ ·) (prev :: rest))
    (hL : (prev :: rest).getLast? = some (prev + remaining.length)) :
    (slicesGo prev rest remaining).flatten = remaining := by
  induction rest generalizing prev remaining with
  | nil =>
      simp only [List.getLast?_singleton, Option.some.injEq] at hL
      have : remaining = [] := List.length_eq_zero.mp (by omega)
      simp [slicesGo, this]
  | cons b rest ih =>
      rw [List.chain'_cons] at hc
      have hpb : prev ≤ b := hc.1
      have hlast : (b :: rest).getLast? = some (prev + remaining.length) := by
        rw [← hL, List.getLast?_cons_cons]
      have hbL : b ≤ prev + remaining.length := chain_le_getLast rest b _ hc.2 hlast
      have hble : b - prev ≤ remaining.length := by omega
      simp only [slicesGo, List.flatten_cons]
      rw [ih b (remaining.drop (b - prev)) hc.2]
      · exact List.take_append_drop _ _
      · rw [List.length_drop]
        have heq : b + (remaining.length - (b - prev)) = prev + remaining.length := by omega
        rw [heq]
        exact hlast

theorem offsetsGo_slicesGo (rest : List Nat) (prev : Nat) (remaining : List Nat)
    (hc : List.Chain' (· ≤ ·) (prev :: rest))
    (hL : (prev :: rest).getLast? = some (prev + remaining.length)) :
    offsetsGo prev (slicesGo prev rest remaining) = prev :: rest := by
  induction rest generalizing prev remaining with
  | nil => simp [slicesGo, offsetsGo]
  | cons b rest ih =>
      rw [List.chain'_cons] at hc
      have hpb : prev ≤ b := hc.1
      have hlast : (b :: rest).getLast? = some (prev + remaining.length) := by
        rw [← hL, List.getLast?_cons_cons]
      have hbL : b ≤ prev + remaining.length := chain_le_getLast rest b _ hc.2 hlast
      simp only [slicesGo, offsetsGo, List.cons.injEq, true_and]
      have htl : (remaining.take (b - prev)).length = b - prev := by
        rw [List.length_take]
        omega
      rw [htl]
      have hpb' : prev + (b - prev) = b := by omega
      rw [hpb']
      apply ih b (remaining.drop (b - prev)) hc.2
      rw [List.length_drop]
      have heq : b + (remaining.length - (b - prev)) = prev + remaining.length := by omega
      rw [heq]
      exact hlast

theorem slicesGo_length_lt (rest : List Nat) (prev : Nat) (remaining : List Nat)
    (h : ∀ o ∈ rest, o < 2 ^ 32) :
    ∀ s ∈ slicesGo prev rest remaining, s.length < 2 ^ 32 := by
  induction rest generalizing prev remaining with
  | nil => simp [slicesGo]
  | cons b rest ih =>
      intro s hs
      simp only [slicesGo, List.mem_cons] at hs
      rcases hs with hs | hs
      · have hb : b < 2 ^ 32 := h b (by simp)
        subst hs
        rw [List.length_take]
        omega
      · exact ih b _ (fun o ho => h o (by simp [ho])) s hs

theorem length_chunksFixed (n w : Nat) (bs : List Nat) :
    (chunksFixed n w bs).length = n := by
  induction n generalizing bs with
  | zero => simp [chunksFixed]
  | succ n ih => simp [chunksFixed, ih]

theorem flatten_chunksFixed (n w : Nat) (bs : List Nat) (h : bs.length = n * w) :
    (chunksFixed n w bs).flatten = bs := by
  induction n generalizing bs with
  | zero =>
      have : bs = [] := List.length_eq_zero.mp (by omega)
      simp [chunksFixed, this]
  | succ n ih =>
      simp only [chunksFixed, List.flatten_cons]
      rw [ih (bs.drop w) (by rw [List.length_drop]; rw [h]; ring_nf; omega)]
      exact List.take_append_drop _ _

theorem chunksFixed_length_lt (n w : Nat) (bs : List Nat) (hw : w < 2 ^ 32) :
    ∀ s ∈ chunksFixed n w bs, s.length < 2 ^ 32 := by
  induction n generalizing bs with
  | zero => simp [chunksFixed]
  | succ n ih =>
      intro s hs
      simp only [chunksFixed, List.mem_cons] at hs
      rcases hs with hs | hs
      · subst hs; rw [List.length_take]; omega
      · exact ih _ s hs

theorem stripTail_append (X Y : List Nat) : stripTail Y.length (X ++ Y) = (X, Y) := by
  have h : (X ++ Y).length - Y.length = X.length := by simp
  simp only [stripTail, h, List.take_left, List.drop_left]

theorem stripTail_zero (bs : List Nat) : stripTail 0 bs = (bs, []) := by
  simp [stripTail]

theorem decodeValuesStream_encode (c : ColumnDef) (rowCount : Nat) (inp : ColumnInput)
    (hv : validValues c rowCount inp.values inp.offsets) :
    decodeValuesStream c.physicalType c.typeLength rowCount
      (encodeValuesStream c rowCount inp) = some (inp.values, inp.offsets) := by
  obtain ⟨nm, pt, rep, tl⟩ := c
  obtain ⟨vals, offs?, dl?, rl?⟩ := inp
  cases offs? with
  | none =>
      cases pt with
      | byteArray => simp [validValues] at hv
      | fixedLenByteArray =>
          simp only [validValues, typeWidth] at hv
          obtain ⟨hlen, htl⟩ := hv
          have hp := parseSlices_encodeSlices (chunksFixed rowCount tl vals)
            (chunksFixed_length_lt rowCount tl vals htl)
          rw [length_chunksFixed] at hp
          simp [decodeValuesStream, encodeValuesStream, hp,
            flatten_chunksFixed rowCount tl vals hlen]
      | _ =>
          simp only [validValues, typeWidth] at hv
          simp [decodeValuesStream, encodeValuesStream, typeWidth, hv.1]
  | some offs =>
      cases pt with
      | byteArray =>
          simp only [validValues] at hv
          obtain ⟨h0, hlast, hchain, hlen, hbound⟩ := hv
          cases offs with
          | nil => simp at h0
          | cons a rest =>
              have ha : a = 0 := by
                simp only [List.head?_cons, Option.some.injEq] at h0
                omega
              subst ha
              have hrest : rest.length = rowCount := by
                simp only [List.length_cons] at hlen
                omega
              have hp := parseSlices_encodeSlices (slicesGo 0 rest vals)
                (slicesGo_length_lt rest 0 vals
                  (fun o ho => hbound o (List.mem_cons_of_mem _ ho)))
              rw [length_slicesGo, hrest] at hp
              have hlast' : (0 :: rest).getLast? = some (0 + vals.length) := by
                rw [Nat.zero_add]; exact hlast
              have hflat := flatten_slicesGo rest 0 vals hchain hlast'
              have hoffs := offsetsGo_slicesGo rest 0 vals hchain hlast'
              simp [decodeValuesStream, encodeValuesStream, byteSlices,
                hp, hflat, hoffs]
      | _ => simp [validValues] at hv

theorem decodeChunk_encodeChunk (compress decompress : List Nat → List Nat)
    (hcd : ∀ bs, decompress (compress bs) = bs)
    (c : ColumnDef) (rowCount : Nat) (inp : ColumnInput)
    (hv : validInput c rowCount inp) :
    decodeChunk decompress c rowCount (encodeChunk compress c rowCount inp) = some inp := by
  obtain ⟨hb, hvv, hvl⟩ := hv
  have hvidec := decodeValuesStream_encode c rowCount inp hvv
  obtain ⟨nm, pt, rep, tl⟩ := c
  obtain ⟨vals, offs?, dl?, rl?⟩ := inp
  cases rep with
  | required =>
      cases dl? with
      | some d => simp [validLevels] at hvl
      | none =>
          cases rl? with
          | some r => simp [validLevels] at hvl
          | none =>
              simp only [encodeValuesStream] at hvidec
              simp [decodeChunk, encodeChunk, hcd, repLevelCount, defLevelCount,
                stripTail_zero, encodeValuesStream, hvidec]
  | optional =>
      cases dl? with
      | none => simp [validLevels] at hvl
      | some d =>
          cases rl? with
          | some r => simp [validLevels] at hvl
          | none =>
              simp only [validLevels] at hvl
              obtain ⟨hd1, hd2⟩ := hvl
              have hstrip : stripTail rowCount
                  (encodeValuesStream ⟨nm, pt, .optional, tl⟩ rowCount
                    ⟨vals, offs?, some d, none⟩ ++ d) =
                  (encodeValuesStream ⟨nm, pt, .optional, tl⟩ rowCount
                    ⟨vals, offs?, some d, none⟩, d) := by
                rw [← hd1]; exact stripTail_append _ _
              have hcond : repLevelCount .optional rowCount
                  + defLevelCount .optional rowCount ≤
                  (encodeValuesStream ⟨nm, pt, .optional, tl⟩ rowCount
                    ⟨vals, offs?, some d, none⟩ ++ d).length := by
                simp [repLevelCount, defLevelCount]
                omega
              simp [decodeChunk, encodeChunk, hcd, repLevelCount, defLevelCount,
                stripTail_zero, hstrip, hcond, hvidec]
              omega
  | repeated =>
      cases dl? with
      | none => simp [validLevels] at hvl
      | some d =>
          cases rl? with
          | none => simp [validLevels] at hvl
          | some r =>
              simp only [validLevels] at hvl
              obtain ⟨hd1, hd2, hr1, hr2⟩ := hvl
              have hstrip1 : stripTail rowCount
                  (encodeValuesStream ⟨nm, pt, .repeated, tl⟩ rowCount
                    ⟨vals, offs?, some d, some r⟩ ++ (d ++ r)) =
                  (encodeValuesStream ⟨nm, pt, .repeated, tl⟩ rowCount
                    ⟨vals, offs?, some d, some r⟩ ++ d, r) := by
                rw [← List.append_assoc, ← hr1]; exact stripTail_append _ _
              have hstrip2 : stripTail rowCount
                  (encodeValuesStream ⟨nm, pt, .repeated, tl⟩ rowCount
                    ⟨vals, offs?, some d, some r⟩ ++ d) =
                  (encodeValuesStream ⟨nm, pt, .repeated, tl⟩ rowCount
                    ⟨vals, offs?, some d, some r⟩, d) := by
                rw [← hd1]; exact stripTail_append _ _
              have hcond : repLevelCount .repeated rowCount
                  + defLevelCount .repeated rowCount ≤
                  (encodeValuesStream ⟨nm, pt, .repeated, tl⟩ rowCount
                    ⟨vals, offs?, some d, some r⟩ ++ d ++ r).length := by
                simp [repLevelCount, defLevelCount]
                omega
              simp [decodeChunk, encodeChunk, hcd, repLevelCount, defLevelCount,
                hstrip1, hstrip2, hvidec]
              omega

/-! ## The type order is total, reflexive and transitive -/

theorem lexLe_refl (a : List Nat) : lexLe a a = true := by
  induction a with
  | nil => rfl
  | cons x xs ih => simp [lexLe, ih]

theorem lexLe_total (a b : List Nat) : lexLe a b = true ∨ lexLe b a = true := by
  induction a generalizing b with
  | nil => left; rfl
  | cons x xs ih =>
      cases b with
      | nil => right; rfl
      | cons y ys =>
          rcases Nat.lt_trichotomy x y with h | h | h
          · left; simp [lexLe, h]
          · subst h
            rcases ih ys with h' | h'
            · left; simp [lexLe, h']
            · right; simp [lexLe, h']
          · right; simp [lexLe, h]

theorem lexLe_trans (a b c : List Nat) (hab : lexLe a b = true) (hbc : lexLe b c = true) :
    lexLe a c = true := by
  induction a generalizing b c with
  | nil => rfl
  | cons x xs ih =>
      cases b with
      | nil => simp [lexLe] at hab
      | cons y ys =>
          cases c with
          | nil => simp [lexLe] at hbc
          | cons z zs =>
              simp only [lexLe] at hab hbc ⊢
              split_ifs at hab hbc ⊢
              all_goals
                first
                  | rfl
                  | exact Bool.noConfusion hab
                  | exact Bool.noConfusion hbc
                  | exact ih ys zs hab hbc
                  | (exfalso; omega)

theorem valLe_refl (pt : PhysicalType) (a : List Nat) : valLe pt a a = true := by
  cases pt <;> simp [valLe, lexLe_refl]

theorem valLe_total (pt : PhysicalType) (a b : List Nat) :
    valLe pt a b = true ∨ valLe pt b a = true := by
  cases pt <;> simp [valLe, lexLe_total, Int.le_total, Nat.le_total]

theorem valLe_trans (pt : PhysicalType) (a b c : List Nat)
    (hab : valLe pt a b = true) (hbc : valLe pt b c = true) : valLe pt a c = true := by
  cases pt <;> simp only [valLe, decide_eq_true_eq] at hab hbc ⊢ <;>
    first
      | exact lexLe_trans a b c hab hbc
      | omega

/-! ## Statistics fold lemmas -/

theorem statsFold_nullCount (pt : PhysicalType) (pairs : List (Nat × List Nat))
    (st : ColumnStats) :
    (pairs.foldl (fun st p => statsStep pt st p.1 p.2) st).nullCount
      = st.nullCount + pairs.countP (fun p => p.1 == 0) := by
  induction pairs generalizing st with
  | nil => simp
  | cons p ps ih =>
      rw [List.foldl_cons, List.countP_cons, ih]
      by_cases h : p.1 = 0
      · simp [statsStep, h]
        omega
      · simp [statsStep, h]

theorem statsFold_min (pt : PhysicalType) (pairs : List (Nat × List Nat))
    (st : ColumnStats) (vs : List (List Nat)) (hst : isMinOf pt st.minValue vs) :
    isMinOf pt (pairs.foldl (fun st p => statsStep pt st p.1 p.2) st).minValue
      (vs ++ presentOf pairs) := by
  induction pairs generalizing st vs with
  | nil => simpa [presentOf] using hst
  | cons p ps ih =>
      rw [List.foldl_cons]
      by_cases h : p.1 = 0
      · have hpres : presentOf (p :: ps) = presentOf ps := by simp [presentOf, h]
        rw [hpres]
        apply ih
        simpa [statsStep, h] using hst
      · have hpres : presentOf (p :: ps) = p.2 :: presentOf ps := by simp [presentOf, h]
        rw [hpres, show vs ++ p.2 :: presentOf ps = (vs ++ [p.2]) ++ presentOf ps by simp]
        apply ih
        have hmv : (statsStep pt st p.1 p.2).minValue
            = some (match st.minValue with
              | none => p.2
              | some m => if valLe pt p.2 m then p.2 else m) := by
          simp [statsStep, h]
        rw [hmv]
        cases hm : st.minValue with
        | none =>
            rw [hm] at hst
            simp only [isMinOf] at hst
            subst hst
            simp [isMinOf, valLe_refl]
        | some m =>
            rw [hm] at hst
            simp only [isMinOf] at hst
            obtain ⟨hmem, hbd⟩ := hst
            simp only [isMinOf]
            by_cases hle : valLe pt p.2 m = true
            · simp only [hle, if_true]
              constructor
              · simp
              · intro v hv
                rcases List.mem_append.mp hv with hv | hv
                · exact valLe_trans pt p.2 m v hle (hbd v hv)
                · simp at hv
                  subst hv
                  exact valLe_refl pt _
            · simp only [hle, if_false]
              constructor
              · exact List.mem_append_left _ hmem
              · intro v hv
                rcases List.mem_append.mp hv with hv | hv
                · exact hbd v hv
                · simp at hv
                  subst hv
                  rcases valLe_total pt p.2 m with h' | h'
                  · exact absurd h' hle
                  · exact h'

theorem statsFold_max (pt : PhysicalType) (pairs : List (Nat × List Nat))
    (st : ColumnStats) (vs : List (List Nat)) (hst : isMaxOf pt st.maxValue vs) :
    isMaxOf pt (pairs.foldl (fun st p => statsStep pt st p.1 p.2) st).maxValue
      (vs ++ presentOf pairs) := by
  induction pairs generalizing st vs with
  | nil => simpa [presentOf] using hst
  | cons p ps ih =>
      rw [List.foldl_cons]
      by_cases h : p.1 = 0
      · have hpres : presentOf (p :: ps) = presentOf ps := by simp [presentOf, h]
        rw [hpres]
        apply ih
        simpa [statsStep, h] using hst
      · have hpres : presentOf (p :: ps) = p.2 :: presentOf ps := by simp [presentOf, h]
        rw [hpres, show vs ++ p.2 :: presentOf ps = (vs ++ [p.2]) ++ presentOf ps by simp]
        apply ih
        have hmv : (statsStep pt st p.1 p.2).maxValue
            = some (match st.maxValue with
              | none => p.2
              | some m => if valLe pt m p.2 then p.2 else m) := by
          simp [statsStep, h]
        rw [hmv]
        cases hm : st.maxValue with
        | none =>
            rw [hm] at hst
            simp only [isMaxOf] at hst
            subst hst
            simp [isMaxOf, valLe_refl]
        | some m =>
            rw [hm] at hst
            simp only [isMaxOf] at hst
            obtain ⟨hmem, hbd⟩ := hst
            simp only [isMaxOf]
            by_cases hle : valLe pt m p.2 = true
            · simp only [hle, if_true]
              constructor
              · simp
              · intro v hv
                rcases List.mem_append.mp hv with hv | hv
                · exact valLe_trans pt v m p.2 (hbd v hv) hle
                · simp at hv
                  subst hv
                  exact valLe_refl pt _
            · simp only [hle, if_false]
              constructor
              · exact List.mem_append_left _ hmem
              · intro v hv
                rcases List.mem_append.mp hv with hv | hv
                · exact hbd v hv
                · simp at hv
                  subst hv
                  rcases valLe_total pt m p.2 with h' | h'
                  · exact absurd h' hle
                  · exact h'

/-! ## Ring buffer lemmas -/

theorem ringPush_full_eq (r : Ring) (x : Rec) (h : ringCount r = r.size - 1) :
    ringPush r x = (.full, r) := by
  unfold ringCount at h
  simp [ringPush, h]

theorem ringPush_size (r : Ring) (x : Rec) : (ringPush r x).2.size = r.size := by
  unfold ringPush
  split <;> rfl

theorem ringPush_ok (r : Ring) (x : Rec) (hinv : RingInv r) (hnf : ringCount r ≠ r.size - 1) :
    (ringPush r x).1 = .ok ∧
    RingInv (ringPush r x).2 ∧
    ringContents (ringPush r x).2 = ringContents r ++ [x] ∧
    ringCount (ringPush r x).2 = ringCount r + 1 := by
  obtain ⟨hlen, hht, hcnt, hpos⟩ := hinv
  unfold ringCount at hnf ⊢
  simp only [ringPush, if_neg hnf]
  refine ⟨trivial, ⟨by simpa using hlen, by show r.head ≤ r.tail + 1; omega,
    by show r.tail + 1 - r.head ≤ r.size - 1; omega, hpos⟩, ?_,
    by show r.tail + 1 - r.head = r.tail - r.head + 1; omega⟩
  show (List.range (r.tail + 1 - r.head)).map
      (fun i => (r.slots.set (r.tail % r.size) x).getD ((r.head + i) % r.size) [])
    = (List.range (r.tail - r.head)).map
        (fun i => r.slots.getD ((r.head + i) % r.size) []) ++ [x]
  have hc : r.tail + 1 - r.head = (r.tail - r.head) + 1 := by omega
  rw [hc, List.range_succ, List.map_append]
  congr 1
  · apply List.map_congr_left
    intro i hi
    rw [List.mem_range] at hi
    have hneq : (r.head + i) % r.size ≠ r.tail % r.size := by
      intro hEq
      have hle : r.head + i ≤ r.tail := by omega
      have hdvd : r.size ∣ (r.tail - (r.head + i)) :=
        (Nat.modEq_iff_dvd' hle).mp hEq
      have h1 : 0 < r.tail - (r.head + i) := by omega
      have h2 := Nat.le_of_dvd h1 hdvd
      omega
    simp [List.getD_eq_getElem?_getD, List.getElem?_set_ne hneq.symm]
  · have hidx : r.head + (r.tail - r.head) = r.tail := by omega
    simp only [List.map_cons, List.map_nil, hidx]
    have hlt : r.tail % r.size < r.slots.length := by
      rw [hlen]; exact Nat.mod_lt _ hpos
    simp [List.getD_eq_getElem?_getD, List.getElem?_set_self, hlt]

theorem ringPop_spec (r : Ring) (hinv : RingInv r) (hne : r.head ≠ r.tail) :
    ringPop r = some (r.slots.getD (r.head % r.size) [], { r with head := r.head + 1 }) ∧
    RingInv { r with head := r.head + 1 } ∧
    ringContents r
      = r.slots.getD (r.head % r.size) [] :: ringContents { r with head := r.head + 1 } ∧
    ringCount { r with head := r.head + 1 } = ringCount r - 1 := by
  obtain ⟨hlen, hht, hcnt, hpos⟩ := hinv
  have hlt : r.head < r.tail := by omega
  refine ⟨by simp [ringPop, hne], ⟨hlen, by show r.head + 1 ≤ r.tail; omega,
    by show r.tail - (r.head + 1) ≤ r.size - 1; omega, hpos⟩, ?_,
    by show r.tail - (r.head + 1) = r.tail - r.head - 1; omega⟩
  show (List.range (r.tail - r.head)).map
      (fun i => r.slots.getD ((r.head + i) % r.size) [])
    = r.slots.getD (r.head % r.size) []
      :: (List.range (r.tail - (r.head + 1))).map
          (fun i => r.slots.getD ((r.head + 1 + i) % r.size) [])
  have hc : r.tail - r.head = (r.tail - (r.head + 1)) + 1 := by omega
  rw [hc, List.range_succ_eq_map, List.map_cons, List.map_map, List.cons.injEq]
  refine ⟨by simp, List.map_congr_left ?_⟩
  intro i hi
  have hco : r.head + (i + 1) = r.head + 1 + i := by omega
  simp [Function.comp, Nat.succ_eq_add_one, hco]

/-! ## Transport invariant: FIFO with no duplication and no loss -/

theorem transportStep_inv (size : Nat) (t t' : Transport)
    (hinv : TransportInv size t) (hs : TransportStep t t') : TransportInv size t' := by
  obtain ⟨hri, hsz, hfifo⟩ := hinv
  cases hs with
  | pushOk x r' h =>
      by_cases hf : ringCount t.ring = t.ring.size - 1
      · rw [ringPush_full_eq _ _ hf] at h
        simp at h
      · have hp := ringPush_ok t.ring x hri hf
        have hr' : r' = (ringPush t.ring x).2 := by rw [h]
        subst hr'
        refine ⟨hp.2.1, by rw [ringPush_size]; exact hsz, ?_⟩
        simp only [hp.2.2.1]
        rw [← List.append_assoc, hfifo]
  | pushFull x h => exact ⟨hri, hsz, hfifo⟩
  | pop x r' h =>
      by_cases hne : t.ring.head = t.ring.tail
      · simp [ringPop, hne] at h
      · have hp := ringPop_spec t.ring hri hne
        rw [hp.1] at h
        simp only [Option.some.injEq, Prod.mk.injEq] at h
        obtain ⟨hx, hr'⟩ := h
        subst hx
        subst hr'
        refine ⟨hp.2.1, hsz, ?_⟩
        rw [List.append_assoc, List.singleton_append, ← hp.2.2.1, hfifo]

theorem transportReach_inv (size : Nat) (hpos : 0 < size) (t : Transport)
    (h : TransportReach size t) : TransportInv size t := by
  induction h with
  | init =>
      refine ⟨⟨by simp [initRing], by simp [initRing], by simp [initRing], by
        simpa [initRing] using hpos⟩, rfl, ?_⟩
      simp [ringContents, initRing]
  | step t t' ht hs ih => exact transportStep_inv size t t' ih hs

/-! ## Sink drain, batching and rotation lemmas -/

theorem ceilDiv_eq (R c L N : Nat) (hR : 0 < R) (hL0 : 0 < L) (hLR : L ≤ R)
    (hN : N = c * R + L) : (N + R - 1) / R = c + 1 := by
  have hx : (c + 1) * R = c * R + R := by ring
  have h1 : N + R - 1 = (L - 1) + (c + 1) * R := by omega
  rw [h1, Nat.add_mul_div_right _ _ hR, Nat.div_eq_of_lt (by omega)]
  omega

theorem sinkConsumeOne_inv (b R m : Nat) (hb : 0 < b) (hR : 0 < R) (hdvd : b ∣ R)
    (s : Sink) (x : Rec) (hinv : SinkInv b R m s) :
    SinkInv b R (m + 1) (sinkConsumeOne s x) := by
  obtain ⟨hbs, hmr, hph, hfo, hst, hcf, hcr, hdv, hcg, hz, hfw, hcount⟩ := hinv
  have hbR : b ≤ R := Nat.le_of_dvd hR hdvd
  simp only [sinkConsumeOne]
  by_cases hflush : (s.staged ++ [x]).length = s.batchSize
  · rw [if_pos hflush]
    have hlenb : s.staged.length + 1 = b := by
      simpa [hbs] using hflush
    simp only [sinkWriteGroup, sinkOpenNextFile, sinkCloseFile]
    by_cases hrot : 0 < s.maxRowsPerFile ∧
        s.maxRowsPerFile < s.currentRows + (s.staged ++ [x]).length
    · rw [if_pos hrot]
      rw [hmr] at hrot
      have hlen' : (s.staged ++ [x]).length = b := by simpa using hlenb
      rw [hlen'] at hrot ⊢
      have hcrR : s.currentRows = R := by
        have hd : b ∣ (R - s.currentRows) := Nat.dvd_sub' hdvd hdv
        have hlt : R - s.currentRows < b := by omega
        have h0 := Nat.eq_zero_of_dvd_of_lt hd hlt
        omega
      rw [if_pos hfo]
      refine ⟨hbs, hmr, hph, rfl, by simpa using hb, ?_, ?_, ?_, ?_, ?_, ?_, ?_⟩
      · dsimp only
        intro f hf
        simp only [List.mem_append, List.mem_singleton] at hf
        rcases hf with hf | hf
        · exact hcf f hf
        · subst hf
          omega
      · dsimp only
        omega
      · dsimp only
        simp
      · dsimp only
        simp
      · dsimp only
        intro h
        exact absurd h (by omega)
      · dsimp only
        simp [hfw]
      · dsimp only
        simp only [List.length_append, List.length_singleton, List.sum_nil,
          List.length_nil]
        have hx : (s.closedFiles.length + 1) * R = s.closedFiles.length * R + R := by ring
        omega
    · rw [if_neg hrot]
      rw [hmr] at hrot
      have hle : s.currentRows + b ≤ R := by
        have hlen' : (s.staged ++ [x]).length = b := by simpa using hlenb
        rw [hlen'] at hrot
        omega
      have hlen' : (s.staged ++ [x]).length = b := by simpa using hlenb
      rw [hlen']
      refine ⟨hbs, hmr, hph, hfo, by simpa using hb, hcf, ?_,
        Nat.dvd_add hdv (dvd_refl b), by simp [hcg], ?_,
        hfw, ?_⟩
      · dsimp only
        omega
      · dsimp only
        intro h
        exact absurd h (by omega)
      · dsimp only
        simp only [List.length_append, List.length_singleton, List.length_nil]
        omega
  · rw [if_neg hflush]
    have hlt : s.staged.length + 1 < b := by
      have : s.staged.length + 1 ≠ b := by
        intro h
        exact hflush (by simpa [hbs] using h)
      omega
    refine ⟨hbs, hmr, hph, hfo, by simpa using hlt, hcf, hcr, hdv, hcg, hz, hfw, ?_⟩
    simp only [List.length_append, List.length_singleton]
    omega

theorem sinkRunStream_inv (b R : Nat) (hb : 0 < b) (hR : 0 < R) (hdvd : b ∣ R)
    (records : List Rec) :
    ∀ (m : Nat) (s : Sink), SinkInv b R m s →
      SinkInv b R (m + records.length) (sinkRunStream s records) := by
  induction records with
  | nil => intro m s h; simpa [sinkRunStream] using h
  | cons x xs ih =>
      intro m s h
      have h1 := sinkConsumeOne_inv b R m hb hR hdvd s x h
      have h2 := ih (m + 1) (sinkConsumeOne s x) h1
      simp only [List.length_cons]
      have : m + (xs.length + 1) = m + 1 + xs.length := by omega
      rw [this]
      simpa [sinkRunStream] using h2

theorem sinkInv_init (b R ringSize : Nat) (hb : 0 < b) :
    SinkInv b R 0 { pqflow_create ringSize b R with phase := .started } := by
  refine ⟨rfl, rfl, rfl, rfl, by simpa [pqflow_create] using hb, by simp [pqflow_create],
    by simp [pqflow_create], by simp [pqflow_create], by simp [pqflow_create],
    by simp [pqflow_create], by simp [pqflow_create], by simp [pqflow_create]⟩

theorem sinkRun_complete (b R N : Nat) (_hb : 0 < b) (hR : 0 < R) (hdvd : b ∣ R)
    (hN : R < N) (s : Sink) (hinv : SinkInv b R N s) :
    (pf_sink_destroy s).filesWritten = (N + R - 1) / R ∧
    (∀ f ∈ (pf_sink_destroy s).closedFiles, f.sum ≤ R) ∧
    (pf_sink_destroy s).currentFileOpen = false := by
  obtain ⟨hbs, hmr, hph, hfo, hst, hcf, hcr, hdv, hcg, hz, hfw, hcount⟩ := hinv
  have hbR : b ≤ R := Nat.le_of_dvd hR hdvd
  simp only [pf_sink_destroy, pf_sink_stop]
  rw [if_neg (by rw [hph]; exact fun h => SinkPhase.noConfusion h)]
  by_cases hstg : s.staged = []
  · rw [if_pos hstg]
    have hcr0 : 0 < s.currentRows := by
      by_contra hc
      push_neg at hc
      have h0 : s.currentRows = 0 := by omega
      obtain ⟨hcl, _⟩ := hz h0
      rw [hstg, hcl, h0] at hcount
      simp at hcount
      omega
    have hdiv := ceilDiv_eq R s.closedFiles.length s.currentRows N hR hcr0 hcr (by
      rw [hstg] at hcount
      simp at hcount
      omega)
    simp only [sinkCloseFile]
    rw [if_pos hfo]
    refine ⟨?_, ?_, rfl⟩
    · dsimp only
      rw [hdiv]
      omega
    · dsimp only
      intro f hf
      simp only [List.mem_append, List.mem_singleton] at hf
      rcases hf with hf | hf
      · exact le_of_eq (hcf f hf)
      · subst hf
        omega
  · rw [if_neg hstg]
    have hlen0 : 0 < s.staged.length := List.length_pos.mpr hstg
    by_cases hrot : 0 < s.maxRowsPerFile ∧
        s.maxRowsPerFile < s.currentRows + s.staged.length
    · have hrotR : 0 < R ∧ R < s.currentRows + s.staged.length := by
        rw [hmr] at hrot
        exact hrot
      have hcrR : s.currentRows = R := by
        have hd : b ∣ (R - s.currentRows) := Nat.dvd_sub' hdvd hdv
        have hlt2 : R - s.currentRows < b := by omega
        have h0 := Nat.eq_zero_of_dvd_of_lt hd hlt2
        omega
      have hwg : sinkWriteGroup s s.staged.length =
          { s with closedFiles := s.closedFiles ++ [s.currentGroups],
                   currentGroups := [] ++ [s.staged.length],
                   currentRows := 0 + s.staged.length,
                   currentFileOpen := true,
                   filesWritten := s.filesWritten + 1,
                   entriesWritten := s.entriesWritten + s.staged.length } := by
        simp only [sinkWriteGroup, sinkOpenNextFile, sinkCloseFile]
        rw [if_pos hrot, if_pos hfo]
      rw [hwg]
      have hdiv := ceilDiv_eq R (s.closedFiles.length + 1) s.staged.length N hR hlen0
        (by omega) (by
          have hx : (s.closedFiles.length + 1) * R = s.closedFiles.length * R + R := by ring
          omega)
      simp only [sinkCloseFile]
      rw [if_pos trivial]
      refine ⟨?_, ?_, rfl⟩
      · dsimp only
        rw [hdiv]
        omega
      · dsimp only
        intro f hf
        simp only [List.mem_append, List.mem_singleton] at hf
        rcases hf with (hf | hf) | hf
        · exact le_of_eq (hcf f hf)
        · subst hf
          omega
        · subst hf
          simp only [List.nil_append, List.sum_cons, List.sum_nil]
          omega
    · have hle : s.currentRows + s.staged.length ≤ R := by
        rw [hmr] at hrot
        omega
      have hwg : sinkWriteGroup s s.staged.length =
          { s with currentGroups := s.currentGroups ++ [s.staged.length],
                   currentRows := s.currentRows + s.staged.length,
                   entriesWritten := s.entriesWritten + s.staged.length } := by
        simp only [sinkWriteGroup, sinkOpenNextFile, sinkCloseFile]
        rw [if_neg hrot]
      rw [hwg]
      have hdiv := ceilDiv_eq R s.closedFiles.length (s.currentRows + s.staged.length) N hR
        (by omega) hle (by omega)
      simp only [sinkCloseFile]
      rw [if_pos hfo]
      refine ⟨?_, ?_, rfl⟩
      · dsimp only
        rw [hdiv]
        omega
      · dsimp only
        intro f hf
        simp only [List.mem_append, List.mem_singleton] at hf
        rcases hf with hf | hf
        · exact le_of_eq (hcf f hf)
        · subst hf
          simp only [List.sum_append, List.sum_cons, List.sum_nil]
          omega

/-! ## Writer composition lemmas -/

theorem countP_zip_fst (l : List Nat) (v : List (List Nat)) (h : l.length ≤ v.length) :
    (l.zip v).countP (fun p => p.1 == 0) = l.countP (fun x => x == 0) := by
  induction l generalizing v with
  | nil => simp
  | cons a as ih =>
      cases v with
      | nil => simp at h
      | cons b bs =>
          simp only [List.zip_cons_cons, List.countP_cons]
          rw [ih bs (by simpa using h)]

theorem length_extractValues (c : ColumnDef) (rowCount : Nat) (inp : ColumnInput)
    (hv : validValues c rowCount inp.values inp.offsets) :
    (extractValues c rowCount inp).length = rowCount := by
  obtain ⟨nm, pt, rep, tl⟩ := c
  obtain ⟨vals, offs?, dl?, rl?⟩ := inp
  cases pt with
  | byteArray =>
      cases offs? with
      | none => simp [validValues] at hv
      | some offs =>
          simp only [validValues] at hv
          obtain ⟨h0, hlast, hchain, hlen, hbound⟩ := hv
          cases offs with
          | nil => simp at hlen
          | cons a rest =>
              simp only [extractValues, byteSlices, Option.getD_some]
              rw [length_slicesGo]
              simp only [List.length_cons] at hlen
              omega
  | _ => simp [extractValues, length_chunksFixed]

theorem length_levelsOf (rep : Repetition) (rowCount : Nat) (inp : ColumnInput)
    (hv : validLevels rep rowCount inp.definitionLevels inp.repetitionLevels) :
    (levelsOf rowCount inp).length = rowCount := by
  obtain ⟨vals, offs?, dl?, rl?⟩ := inp
  cases rep <;> cases dl? <;> cases rl? <;> simp_all [validLevels, levelsOf]

theorem chunkStats_spec (c : ColumnDef) (rowCount : Nat) (inp : ColumnInput)
    (hv : validInput c rowCount inp) :
    statsMatch c rowCount inp (chunkStats c rowCount inp) := by
  obtain ⟨hbytes, hvv, hvl⟩ := hv
  have hle : (levelsOf rowCount inp).length ≤ (extractValues c rowCount inp).length := by
    rw [length_levelsOf c.repetition rowCount inp hvl,
        length_extractValues c rowCount inp hvv]
  refine ⟨?_, ?_, ?_⟩
  · simp only [chunkStats, statsFold_nullCount, countP_zip_fst _ _ hle]
    omega
  · simp only [chunkStats, presentValues]
    have h := statsFold_min c.physicalType
      ((levelsOf rowCount inp).zip (extractValues c rowCount inp))
      ⟨0, none, none⟩ [] (by simp [isMinOf])
    simpa using h
  · simp only [chunkStats, presentValues]
    have h := statsFold_max c.physicalType
      ((levelsOf rowCount inp).zip (extractValues c rowCount inp))
      ⟨0, none, none⟩ [] (by simp [isMaxOf])
    simpa using h

theorem mem_zip_map_self {α β : Type} (f : α → β) (l : List α) (q : β × α)
    (hq : q ∈ (l.map f).zip l) : q.1 = f q.2 ∧ q.2 ∈ l := by
  induction l with
  | nil => simp at hq
  | cons a as ih =>
      simp only [List.map_cons, List.zip_cons_cons, List.mem_cons] at hq
      rcases hq with hq | hq
      · subst hq
        exact ⟨rfl, by simp⟩
      · obtain ⟨h1, h2⟩ := ih hq
        exact ⟨h1, by simp [h2]⟩

theorem groupMatches_rowGroupMetaOf (compress : List Nat → List Nat)
    (schema : List ColumnDef) (b : RowBatch) (off : Nat) (hb : validBatch schema b) :
    groupMatches schema b (rowGroupMetaOf compress schema b off) := by
  obtain ⟨hlen, hcols⟩ := hb
  refine ⟨rfl, ?_, ?_⟩
  · simp [rowGroupMetaOf, hlen]
  · intro q hq
    simp only [rowGroupMetaOf] at hq
    obtain ⟨h1, h2⟩ := mem_zip_map_self _ _ q hq
    rw [h1]
    exact chunkStats_spec q.2.1 b.rowCount q.2.2 (hcols q.2 h2)

theorem writeBatch_step (compress : List Nat → List Nat) (schema : List ColumnDef)
    (w : Writer) (b : RowBatch) (hw : w.phase = .opened) (hs : w.schema = schema)
    (hvb : validBatch schema b) :
    pf_writer_write_row_group compress w b
      = (.ok, { w with
                 meta := w.meta ++ [rowGroupMetaOf compress schema b w.bytesWritten],
                 bytesWritten := w.bytesWritten
                   + (rowGroupBytes compress schema b).length }) := by
  rw [← hs]
  simp only [pf_writer_write_row_group, hw]
  rw [if_pos (by rw [hs]; exact hvb.1)]

theorem writerFold (compress : List Nat → List Nat) (schema : List ColumnDef)
    (batches : List RowBatch) :
    ∀ (w : Writer), w.phase = .opened → w.schema = schema →
      (∀ b ∈ batches, validBatch schema b) →
      (batches.foldl (fun w b => (pf_writer_write_row_group compress w b).2) w).phase
          = .opened ∧
      (batches.foldl (fun w b => (pf_writer_write_row_group compress w b).2) w).schema
          = schema ∧
      ∃ new,
        (batches.foldl (fun w b => (pf_writer_write_row_group compress w b).2) w).meta
            = w.meta ++ new ∧
        new.map (·.rowCount) = batches.map (·.rowCount) ∧
        ∀ q ∈ new.zip batches, groupMatches schema q.2 q.1 := by
  induction batches with
  | nil =>
      intro w hw hs _
      exact ⟨hw, hs, [], by simp, by simp, by simp⟩
  | cons b bs ih =>
      intro w hw hs hb
      have hvb := hb b (by simp)
      have hstep := writeBatch_step compress schema w b hw hs hvb
      rw [List.foldl_cons, hstep]
      dsimp only
      have hih := ih { w with
          meta := w.meta ++ [rowGroupMetaOf compress schema b w.bytesWritten],
          bytesWritten := w.bytesWritten + (rowGroupBytes compress schema b).length }
        hw hs (fun b' hb' => hb b' (by simp [hb']))
      obtain ⟨hph, hsc, new₁, hmeta, hmap, hzip⟩ := hih
      refine ⟨hph, hsc, rowGroupMetaOf compress schema b w.bytesWritten :: new₁, ?_, ?_, ?_⟩
      · rw [hmeta]
        dsimp only
        simp
      · simp only [List.map_cons, hmap]
        rfl
      · intro q hq
        simp only [List.zip_cons_cons, List.mem_cons] at hq
        rcases hq with hq | hq
        · subst hq
          exact groupMatches_rowGroupMetaOf compress schema b w.bytesWritten hvb
        · exact hzip q hq

/-! ## Schema validation lemmas -/

theorem defineErr_iff (columns : List ColumnDef) :
    defineErr columns = true ↔
      (columns = [] ∨ ¬(columns.map (·.name)).Nodup ∨
        ∃ c ∈ columns,
          (c.physicalType = .fixedLenByteArray ∧ c.typeLength = 0) ∨
          (c.physicalType ≠ .fixedLenByteArray ∧ c.typeLength ≠ 0)) := by
  simp only [defineErr, List.isEmpty_iff, List.any_eq_true, Bool.or_eq_true,
    Bool.and_eq_true, Bool.not_eq_eq_eq_not, Bool.not_true, decide_eq_true_eq,
    decide_eq_false_iff_not, ne_eq]
  rw [or_assoc]

theorem writerStep_closed (compress : List Nat → List Nat) (w : Writer)
    (hw : w.phase = .closed) (op : WriterOp) :
    (writerStep compress w op).2 = w ∧ (writerStep compress w op).1 ≠ .ok := by
  cases op with
  | setSchema columns =>
      simp only [writerStep, pf_writer_set_schema, hw]
      exact ⟨trivial, by simp⟩
  | openFile =>
      simp only [writerStep, pf_writer_open, hw]
      exact ⟨trivial, by simp⟩
  | writeRowGroup b =>
      simp only [writerStep, pf_writer_write_row_group, hw]
      exact ⟨trivial, by simp⟩
  | closeFile =>
      simp only [writerStep, pf_writer_close, hw]
      exact ⟨trivial, by simp⟩

/-! ## The claims -/

/-- C2: for every column with a declared physical type and repetition and
every valid input, decoding the output of `encode()` with the declared
physical type and repetition recovers exactly the original values, offsets
and levels (hence the original null pattern); and the encoded layout is the
values stream, then definition levels, then repetition levels, with
compression applied to the whole concatenation. -/
theorem claim_C2_encode_roundtrip (compress decompress : List Nat → List Nat)
    (hcd : ∀ bs, decompress (compress bs) = bs)
    (c : ColumnDef) (rowCount : Nat) (inp : ColumnInput)
    (hv : validInput c rowCount inp) :
    decodeChunk decompress c rowCount (encodeChunk compress c rowCount inp) = some inp ∧
    encodeChunk compress c rowCount inp
      = compress (encodeValuesStream c rowCount inp
          ++ inp.definitionLevels.getD [] ++ inp.repetitionLevels.getD []) :=
  ⟨decodeChunk_encodeChunk compress decompress hcd c rowCount inp hv, rfl⟩

/-- Witness for C2 at the identity codec, an OPTIONAL INT32 column and a
two-row input with one null. -/
theorem claim_C2_encode_roundtrip_witness :
    (∀ bs : List Nat, id (id bs) = bs) ∧
    validInput sampleColumn 2 sampleInput ∧
    (decodeChunk id sampleColumn 2 (encodeChunk id sampleColumn 2 sampleInput)
        = some sampleInput ∧
      encodeChunk id sampleColumn 2 sampleInput
        = id (encodeValuesStream sampleColumn 2 sampleInput
            ++ sampleInput.definitionLevels.getD []
            ++ sampleInput.repetitionLevels.getD [])) := by
  have hv : validInput sampleColumn 2 sampleInput := by
    simp [validInput, validValues, validLevels, sampleColumn, sampleInput, typeWidth]
  exact ⟨fun bs => rfl, hv,
    claim_C2_encode_roundtrip id id (fun bs => rfl) sampleColumn 2 sampleInput hv⟩

/-- C6: `define(columns)` fails with `InvalidArgument` iff the column list
is empty, has duplicate names, has a FIXED_BYTE_ARRAY column with zero
type_length, or a non-FIXED_BYTE_ARRAY column with nonzero type_length; on
success the schema is frozen and any later mutation attempt fails with
`SchemaError`. -/
theorem claim_C6_schema_validation (columns : List ColumnDef) :
    (define columns = .error .invalidArgument ↔
      (columns = [] ∨ ¬(columns.map (·.name)).Nodup ∨
        ∃ c ∈ columns,
          (c.physicalType = .fixedLenByteArray ∧ c.typeLength = 0) ∨
          (c.physicalType ≠ .fixedLenByteArray ∧ c.typeLength ≠ 0))) ∧
    (∀ (s s' : Sink), pqflow_set_schema s columns = (.ok, s') →
      ∀ cols₂, pqflow_set_schema s' cols₂ = (.schemaError, s')) := by
  constructor
  · rw [← defineErr_iff]
    unfold define
    by_cases hd : defineErr columns
    · simp [hd]
    · simp [hd]
  · intro s s' h cols₂
    cases hp : s.phase with
    | created =>
        rw [pqflow_set_schema, hp] at h
        by_cases hd : defineErr columns
        · simp [define, hd] at h
        · simp only [define, hd, if_false, Bool.false_eq_true] at h
          have hs' : s' = { s with phase := .schemaSet, schema := columns } := by
            have h2 := congrArg Prod.snd h
            simpa using h2.symm
          subst hs'
          simp [pqflow_set_schema]
    | schemaSet => rw [pqflow_set_schema, hp] at h; simp at h
    | started => rw [pqflow_set_schema, hp] at h; simp at h
    | stopped => rw [pqflow_set_schema, hp] at h; simp at h

/-- Witness for C6: a valid one-column schema passes `define`, and setting
it on a fresh sink freezes the schema so a second attempt fails with
`SchemaError`. -/
theorem claim_C6_schema_validation_witness :
    (¬(define sampleSchema = .error .invalidArgument) ∧
      ¬(sampleSchema = [] ∨ ¬(sampleSchema.map (·.name)).Nodup ∨
        ∃ c ∈ sampleSchema,
          (c.physicalType = .fixedLenByteArray ∧ c.typeLength = 0) ∨
          (c.physicalType ≠ .fixedLenByteArray ∧ c.typeLength ≠ 0))) ∧
    pqflow_set_schema (pqflow_set_schema (pqflow_create 8 3 0) sampleSchema).2 []
      = (.schemaError, (pqflow_set_schema (pqflow_create 8 3 0) sampleSchema).2) := by
  have h := claim_C6_schema_validation sampleSchema
  have hnc : ¬(sampleSchema = [] ∨ ¬(sampleSchema.map (·.name)).Nodup ∨
      ∃ c ∈ sampleSchema,
        (c.physicalType = .fixedLenByteArray ∧ c.typeLength = 0) ∨
        (c.physicalType ≠ .fixedLenByteArray ∧ c.typeLength ≠ 0)) := by decide
  refine ⟨⟨fun hc => hnc (h.1.mp hc), hnc⟩, ?_⟩
  exact h.2 (pqflow_create 8 3 0) (pqflow_set_schema (pqflow_create 8 3 0) sampleSchema).2
    (by decide) []

/-- C8: the file writer obeys the lifecycle `Created → SchemaSet → Open →
Closed`: `open()` succeeds exactly from `SchemaSet`, `write_row_group` is
rejected outside `Open`, `close()` before `open()` fails with `NotOpen`,
and `Closed` is terminal — under every further operation sequence the state
stays `Closed` and every operation (in particular every write) is
rejected. -/
theorem claim_C8_lifecycle (compress : List Nat → List Nat) (w : Writer) :
    (w.phase = .schemaSet →
      (pf_writer_open w).1 = .ok ∧ (pf_writer_open w).2.phase = .opened) ∧
    (w.phase ≠ .schemaSet → pf_writer_open w = (.notOpen, w)) ∧
    (w.phase ≠ .opened → ∀ b, pf_writer_write_row_group compress w b = (.notOpen, w)) ∧
    ((w.phase = .created ∨ w.phase = .schemaSet) → pf_writer_close w = (.notOpen, w)) ∧
    (w.phase = .closed →
      (∀ ops, writerRun compress w ops = w) ∧
      (∀ op, (writerStep compress w op).1 ≠ .ok)) := by
  refine ⟨?_, ?_, ?_, ?_, ?_⟩
  · intro h
    simp [pf_writer_open, h]
  · intro h
    cases hp : w.phase <;> simp_all [pf_writer_open]
  · intro h b
    cases hp : w.phase <;> simp_all [pf_writer_write_row_group]
  · intro h
    rcases h with h | h <;> simp [pf_writer_close, h]
  · intro h
    constructor
    · intro ops
      induction ops with
      | nil => rfl
      | cons op ops ih =>
          have hstep := writerStep_closed compress w h op
          simp only [writerRun, List.foldl_cons]
          rw [hstep.1]
          simpa [writerRun] using ih
    · intro op
      exact (writerStep_closed compress w h op).2

/-- Witness for C8 at concrete writer states in each lifecycle phase. -/
theorem claim_C8_lifecycle_witness :
    ((pf_writer_open { phase := .schemaSet, schema := [], meta := [], bytesWritten := 0 }).1
        = .ok ∧
      (pf_writer_open { phase := .schemaSet, schema := [], meta := [], bytesWritten := 0 }).2.phase
        = .opened) ∧
    pf_writer_close { phase := .created, schema := [], meta := [], bytesWritten := 0 }
      = (.notOpen, { phase := .created, schema := [], meta := [], bytesWritten := 0 }) ∧
    writerRun id { phase := .closed, schema := [], meta := [], bytesWritten := 0 }
        [.openFile, .writeRowGroup ⟨0, []⟩, .closeFile]
      = { phase := .closed, schema := [], meta := [], bytesWritten := 0 } ∧
    (writerStep id { phase := .closed, schema := [], meta := [], bytesWritten := 0 }
        (.writeRowGroup ⟨0, []⟩)).1 ≠ .ok := by
  refine ⟨(claim_C8_lifecycle id _).1 rfl, ?_, ?_, ?_⟩
  · exact (claim_C8_lifecycle id _).2.2.2.1 (Or.inl rfl)
  · exact ((claim_C8_lifecycle id _).2.2.2.2 rfl).1 _
  · exact ((claim_C8_lifecycle id _).2.2.2.2 rfl).2 _

/-- C9: `destroy()` is idempotent and null-safe — destroying a null handle
is a no-op, destroying twice equals destroying once (so there is no
double-close effect on `files_written`), and on a not-yet-stopped sink
`destroy()` performs `stop()` and then closes the current file. -/
theorem claim_C9_destroy_idempotent (h : Option Sink) (s : Sink) :
    pqflow_destroy none = none ∧
    pqflow_destroy (pqflow_destroy h) = pqflow_destroy h ∧
    (pf_sink_destroy (pf_sink_destroy s)).filesWritten
      = (pf_sink_destroy s).filesWritten ∧
    (s.phase ≠ .stopped → pf_sink_destroy s = sinkCloseFile (pf_sink_stop s)) := by
  have hstopped : ∀ t : Sink, (pf_sink_stop t).phase = .stopped := by
    intro t
    unfold pf_sink_stop
    by_cases hp : t.phase = .stopped
    · rw [if_pos hp]
      exact hp
    · rw [if_neg hp]
  have hcloseKeep : ∀ t : Sink, (sinkCloseFile t).phase = t.phase := by
    intro t
    unfold sinkCloseFile
    by_cases hop : t.currentFileOpen = true <;> simp [hop]
  have hcloseShut : ∀ t : Sink, (sinkCloseFile t).currentFileOpen = false := by
    intro t
    unfold sinkCloseFile
    by_cases hop : t.currentFileOpen = true
    · rw [if_pos hop]
    · rw [if_neg hop]
      simpa using hop
  have hstopId : ∀ t : Sink, t.phase = .stopped → pf_sink_stop t = t := by
    intro t ht
    unfold pf_sink_stop
    rw [if_pos ht]
  have hcloseId : ∀ t : Sink, t.currentFileOpen = false → sinkCloseFile t = t := by
    intro t ht
    unfold sinkCloseFile
    rw [if_neg (by rw [ht]; exact fun hc => Bool.noConfusion hc)]
  have hdestroy : ∀ t : Sink, pf_sink_destroy (pf_sink_destroy t) = pf_sink_destroy t := by
    intro t
    show sinkCloseFile (pf_sink_stop (sinkCloseFile (pf_sink_stop t)))
        = sinkCloseFile (pf_sink_stop t)
    rw [hstopId _ (by rw [hcloseKeep, hstopped])]
    exact hcloseId _ (hcloseShut _)
  exact ⟨rfl, by
    cases h with
    | none => rfl
    | some s' => simpa [pqflow_destroy] using hdestroy s', by rw [hdestroy s], fun _ => rfl⟩

/-- Witness for C9 at a concrete started sink. -/
theorem claim_C9_destroy_idempotent_witness :
    pqflow_destroy none = none ∧
    pqflow_destroy (pqflow_destroy (some { pqflow_create 8 3 0 with phase := .started }))
      = pqflow_destroy (some { pqflow_create 8 3 0 with phase := .started }) ∧
    (pf_sink_destroy (pf_sink_destroy { pqflow_create 8 3 0 with phase := .started })).filesWritten
      = (pf_sink_destroy { pqflow_create 8 3 0 with phase := .started }).filesWritten ∧
    pf_sink_destroy { pqflow_create 8 3 0 with phase := .started }
      = sinkCloseFile (pf_sink_stop { pqflow_create 8 3 0 with phase := .started }) := by
  have h := claim_C9_destroy_idempotent
    (some { pqflow_create 8 3 0 with phase := .started })
    { pqflow_create 8 3 0 with phase := .started }
  exact ⟨h.1, h.2.1, h.2.2.1, h.2.2.2 (by decide)⟩

/-- C10: every schema constructible through the variant-2 API has columns
whose physical type is one of BOOLEAN, INT32, INT64, FLOAT, DOUBLE,
BYTE_ARRAY and whose repetition is REQUIRED or OPTIONAL; INT96,
FIXED_LEN_BYTE_ARRAY, REPEATED and nonzero type_length are not
expressible. -/
theorem claim_C10_variant2_shapes (cols : List PfColumnDef) :
    ∀ c ∈ cols.map pfColumnToDef,
      (c.physicalType = .boolean ∨ c.physicalType = .int32 ∨ c.physicalType = .int64 ∨
        c.physicalType = .float ∨ c.physicalType = .double ∨
        c.physicalType = .byteArray) ∧
      c.physicalType ≠ .int96 ∧
      c.physicalType ≠ .fixedLenByteArray ∧
      (c.repetition = .required ∨ c.repetition = .optional) ∧
      c.repetition ≠ .repeated ∧
      c.typeLength = 0 := by
  intro c hc
  simp only [List.mem_map] at hc
  obtain ⟨p, hp, rfl⟩ := hc
  obtain ⟨nm, ct, req⟩ := p
  cases ct <;> cases req <;> simp [pfColumnToDef, pfTypeToPhysical]

/-- Witness for C10 at a concrete two-column variant-2 schema. -/
theorem claim_C10_variant2_shapes_witness :
    pfColumnToDef { name := [105], colType := .pfInt64, required := true }
        ∈ ([{ name := [105], colType := .pfInt64, required := true },
            { name := [110], colType := .pfByteArray, required := false }].map
              pfColumnToDef) ∧
    ((pfColumnToDef { name := [105], colType := .pfInt64, required := true }).physicalType
        ≠ .int96 ∧
      (pfColumnToDef { name := [105], colType := .pfInt64, required := true }).typeLength
        = 0) := by
  have h := claim_C10_variant2_shapes
    [{ name := [105], colType := .pfInt64, required := true },
     { name := [110], colType := .pfByteArray, required := false }]
    (pfColumnToDef { name := [105], colType := .pfInt64, required := true })
    (by simp)
  exact ⟨by simp, h.2.1, h.2.2.2.2.2⟩

theorem pf_writer_close_opened_status (w : Writer) (h : w.phase = .opened) :
    (pf_writer_close w).1 = .ok := by
  obtain ⟨ph, sc, mt, bw⟩ := w
  dsimp only at h
  subst h
  rfl

theorem footer_close_opened (w : Writer) (h : w.phase = .opened) :
    footerOf (pf_writer_close w).2 = { schema := w.schema, rowGroups := w.meta } := by
  obtain ⟨ph, sc, mt, bw⟩ := w
  dsimp only at h
  subst h
  rfl

/-- C1: for every valid schema and every sequence of valid row batches,
writing each batch with `write_row_group` and then `close` succeeds and
produces a footer whose per-row-group row counts sum to the total rows
written and whose per-column statistics match the directly computed
min/max (type order) and null count (definition levels equal to 0). -/
theorem claim_C1_footer_stats (compress : List Nat → List Nat)
    (schema : List ColumnDef) (batches : List RowBatch)
    (hschema : defineErr schema = false)
    (hbs : ∀ b ∈ batches, validBatch schema b) :
    (writerPipeline compress schema batches).1 = .ok ∧
    ((footerOf (writerPipeline compress schema batches).2).rowGroups.map
        (·.rowCount)).sum = (batches.map (·.rowCount)).sum ∧
    (footerOf (writerPipeline compress schema batches).2).rowGroups.length
        = batches.length ∧
    ∀ q ∈ (footerOf (writerPipeline compress schema batches).2).rowGroups.zip batches,
      groupMatches schema q.2 q.1 := by
  have hset : pf_writer_set_schema pf_writer_create schema
      = (.ok, { phase := .schemaSet, schema := schema, meta := [], bytesWritten := 0 }) := by
    simp [pf_writer_set_schema, pf_writer_create, define, hschema]
  have hopen : pf_writer_open
        { phase := .schemaSet, schema := schema, meta := [], bytesWritten := 0 }
      = (.ok, { phase := .opened, schema := schema, meta := [],
                bytesWritten := 0 + magicLen }) := rfl
  obtain ⟨hph, hsc, new, hmeta, hmap, hzip⟩ := writerFold compress schema batches
    { phase := .opened, schema := schema, meta := [], bytesWritten := 0 + magicLen }
    rfl rfl hbs
  have hpipe : writerPipeline compress schema batches
      = pf_writer_close
          (batches.foldl (fun w b => (pf_writer_write_row_group compress w b).2)
            { phase := .opened, schema := schema, meta := [],
              bytesWritten := 0 + magicLen }) := by
    unfold writerPipeline
    rw [hset]
    dsimp only
    rw [hopen]
  rw [hpipe, footer_close_opened _ hph]
  have hlen : new.length = batches.length := by
    have := congrArg List.length hmap
    simpa using this
  dsimp only
  rw [hmeta]
  simp only [List.nil_append]
  exact ⟨pf_writer_close_opened_status _ hph, by rw [hmap], by simpa using hlen, hzip⟩

/-- Witness for C1 at the identity codec and the spec section 8 scenario
schema and batch. -/
theorem claim_C1_footer_stats_witness :
    (writerPipeline id sampleSchema [sampleBatch]).1 = .ok ∧
    ((footerOf (writerPipeline id sampleSchema [sampleBatch]).2).rowGroups.map
        (·.rowCount)).sum = ([sampleBatch].map (·.rowCount)).sum ∧
    (footerOf (writerPipeline id sampleSchema [sampleBatch]).2).rowGroups.length
        = [sampleBatch].length ∧
    ∀ q ∈ (footerOf (writerPipeline id sampleSchema [sampleBatch]).2).rowGroups.zip
        [sampleBatch],
      groupMatches sampleSchema q.2 q.1 := by
  apply claim_C1_footer_stats id sampleSchema [sampleBatch] (by decide)
  intro b hb
  simp only [List.mem_singleton] at hb
  subst hb
  refine ⟨by decide, ?_⟩
  intro p hp
  simp only [sampleSchema, sampleBatch, List.zip_cons_cons, List.zip_nil_right,
    List.mem_cons, List.not_mem_nil, or_false] at hp
  rcases hp with hp | hp <;> subst hp <;>
    simp [validInput, validValues, validLevels, typeWidth, sampleBatch]

/-- C3: pushing to a full ring (holding `size - 1` unconsumed records, i.e.
the next tail slot collides with the head) returns `Full` immediately and
drops the record — the sink state, and in particular `entries_written`, is
unchanged and no unread slot is overwritten; after the consumer pops one
record, the next push succeeds. -/
theorem claim_C3_push_full (s : Sink) (x y : Rec)
    (hph : s.phase = .started) (hinv : RingInv s.ring)
    (hfull : ringCount s.ring = s.ring.size - 1) (hsz : 2 ≤ s.ring.size) :
    pqflow_log s x = (.full, s) ∧
    (s.ring.tail + 1) % s.ring.size = s.ring.head % s.ring.size ∧
    (pqflow_log s x).2.entriesWritten = s.entriesWritten ∧
    ∃ v s', sinkPopRing s = some (v, s') ∧ (pqflow_log s' y).1 = .ok := by
  obtain ⟨hlen, hht, hcnt, hpos⟩ := hinv
  have hpush := ringPush_full_eq s.ring x hfull
  have hlog : pqflow_log s x = (.full, s) := by
    simp only [pqflow_log, hph, hpush]
  unfold ringCount at hfull
  refine ⟨hlog, ?_, by rw [hlog], ?_⟩
  · have ht : s.ring.tail + 1 = s.ring.head + s.ring.size := by omega
    rw [ht, Nat.add_mod_right]
  · have hne : s.ring.head ≠ s.ring.tail := by omega
    have hp := ringPop_spec s.ring ⟨hlen, hht, hcnt, hpos⟩ hne
    refine ⟨s.ring.slots.getD (s.ring.head % s.ring.size) [],
      { s with ring := { s.ring with head := s.ring.head + 1 } }, ?_, ?_⟩
    · simp [sinkPopRing, hp.1]
    · have hcnt' : s.ring.tail - (s.ring.head + 1) ≠ s.ring.size - 1 := by omega
      have hpair : ringPush { s.ring with head := s.ring.head + 1 } y
          = (.ok, { s.ring with head := s.ring.head + 1,
                                slots := s.ring.slots.set (s.ring.tail % s.ring.size) y,
                                tail := s.ring.tail + 1 }) := by
        unfold ringPush
        rw [if_neg hcnt']
      simp [pqflow_log, hph, hpair]

/-- Witness for C3 at a concrete full four-slot ring. -/
theorem claim_C3_push_full_witness :
    pqflow_log { pqflow_create 4 3 0 with
                   phase := .started,
                   ring := { size := 4, slots := [[1], [2], [3], [0]],
                             head := 0, tail := 3 } } [9]
      = (.full, { pqflow_create 4 3 0 with
                    phase := .started,
                    ring := { size := 4, slots := [[1], [2], [3], [0]],
                              head := 0, tail := 3 } }) ∧
    (3 + 1) % 4 = 0 % 4 ∧
    ∃ v s', sinkPopRing { pqflow_create 4 3 0 with
                            phase := .started,
                            ring := { size := 4, slots := [[1], [2], [3], [0]],
                                      head := 0, tail := 3 } }
          = some (v, s') ∧
      (pqflow_log s' [7]).1 = .ok := by
  have h := claim_C3_push_full
    { pqflow_create 4 3 0 with
        phase := .started,
        ring := { size := 4, slots := [[1], [2], [3], [0]], head := 0, tail := 3 } }
    [9] [7] rfl ⟨by decide, by decide, by decide, by decide⟩ (by decide) (by decide)
  exact ⟨h.1, h.2.1, h.2.2.2⟩

/-- C4: in every reachable state of the push/pop step relation of the
single-producer/single-consumer transport, the records the consumer has
observed followed by the records still buffered are exactly the
successfully pushed records, in push order — no reordering, no
duplication, no loss; once the buffer is drained the consumer has observed
exactly the pushed records. -/
theorem claim_C4_fifo_order (size : Nat) (hpos : 0 < size) (t : Transport)
    (h : TransportReach size t) :
    t.popped ++ ringContents t.ring = t.pushedOk ∧
    (ringContents t.ring = [] → t.popped = t.pushedOk) := by
  have hinv := transportReach_inv size hpos t h
  refine ⟨hinv.2.2, fun hz => ?_⟩
  have := hinv.2.2
  rw [hz] at this
  simpa using this

/-- Witness for C4 at a concrete reachable state: push then pop on a
two-slot transport. -/
theorem claim_C4_fifo_order_witness :
    ({ ring := { size := 2, slots := [[5], []], head := 1, tail := 1 },
       pushedOk := [[5]], popped := [[5]] } : Transport).popped
        ++ ringContents { size := 2, slots := [[5], []], head := 1, tail := 1 }
      = [[5]] ∧
    (ringContents { size := 2, slots := [[5], []], head := 1, tail := 1 } = [] →
      ([[5]] : List Rec) = [[5]]) := by
  have hreach : TransportReach 2
      { ring := { size := 2, slots := [[5], []], head := 1, tail := 1 },
        pushedOk := [[5]], popped := [[5]] } := by
    have h1 : TransportStep
        { ring := initRing 2, pushedOk := [], popped := [] }
        { ring := { size := 2, slots := [[5], []], head := 0, tail := 1 },
          pushedOk := [[5]], popped := [] } := by
      have := TransportStep.pushOk
        { ring := initRing 2, pushedOk := [], popped := [] } [5]
        { size := 2, slots := [[5], []], head := 0, tail := 1 } (by decide)
      simpa using this
    have h2 : TransportStep
        { ring := { size := 2, slots := [[5], []], head := 0, tail := 1 },
          pushedOk := [[5]], popped := [] }
        { ring := { size := 2, slots := [[5], []], head := 1, tail := 1 },
          pushedOk := [[5]], popped := [[5]] } := by
      have := TransportStep.pop
        { ring := { size := 2, slots := [[5], []], head := 0, tail := 1 },
          pushedOk := [[5]], popped := [] } [5]
        { size := 2, slots := [[5], []], head := 1, tail := 1 } (by decide)
      simpa using this
    exact .step _ _ (.step _ _ .init h1) h2
  exact claim_C4_fifo_order 2 (by decide) _ hreach

/-- C5 counterexample: with `max_rows_per_file = 3` and `batch_size = 2`, a
completed run of 6 streamed records (6 > 3) produces 3 files, not
`ceil(6 / 3) = 2` — whole batches are never split, so a file receives only
`batch_size * (R / batch_size)` rows between rotations. -/
theorem claim_C5_counterexample :
    3 < 6 ∧
    (pf_sink_run { pqflow_create 8 2 3 with phase := .started }
        (List.replicate 6 [])).filesWritten ≠ (6 + 3 - 1) / 3 := by
  refine ⟨by decide, ?_⟩
  have hval : (pf_sink_run { pqflow_create 8 2 3 with phase := .started }
      (List.replicate 6 [])).filesWritten = 3 := by
    simp [pf_sink_run, pf_sink_destroy, sinkRunStream, sinkConsumeOne, sinkWriteGroup,
      pf_sink_stop, sinkCloseFile, sinkOpenNextFile, pqflow_create, List.replicate]
  rw [hval]
  decide

/-- C5 (amended): when additionally `batch_size` divides `max_rows_per_file
= R > 0`, a completed run of `N > R` streamed records produces exactly
`ceil(N / R)` files, no file's row count exceeds `R`, and every file is
closed. -/
theorem claim_C5_rotation (ringSize b R : Nat) (records : List Rec)
    (hb : 0 < b) (hR : 0 < R) (hdvd : b ∣ R) (hN : R < records.length) :
    (pf_sink_run { pqflow_create ringSize b R with phase := .started }
        records).filesWritten = (records.length + R - 1) / R ∧
    (∀ f ∈ (pf_sink_run { pqflow_create ringSize b R with phase := .started }
        records).closedFiles, f.sum ≤ R) ∧
    (pf_sink_run { pqflow_create ringSize b R with phase := .started }
        records).currentFileOpen = false := by
  have h0 := sinkInv_init b R ringSize hb
  have h1 := sinkRunStream_inv b R hb hR hdvd records 0 _ h0
  rw [Nat.zero_add] at h1
  exact sinkRun_complete b R records.length hb hR hdvd hN _ h1

/-- Witness for C5 (amended): batch size 2, row cap 4, six records give
`ceil(6 / 4) = 2` files. -/
theorem claim_C5_rotation_witness :
    (pf_sink_run { pqflow_create 4 2 4 with phase := .started }
        (List.replicate 6 [])).filesWritten = (6 + 4 - 1) / 4 ∧
    (∀ f ∈ (pf_sink_run { pqflow_create 4 2 4 with phase := .started }
        (List.replicate 6 [])).closedFiles, f.sum ≤ 4) ∧
    (pf_sink_run { pqflow_create 4 2 4 with phase := .started }
        (List.replicate 6 [])).currentFileOpen = false := by
  have h := claim_C5_rotation 4 2 4 (List.replicate 6 []) (by decide) (by decide)
    (by decide) (by decide)
  simpa using h

/-- C7: with `batch_size = 3`, streaming exactly 7 records and then calling
`stop()` produces exactly 3 row groups with row counts 3, 3, 1 — the
remainder is drained as one final forced batch below the batch size. -/
theorem claim_C7_stop_drains (ringSize : Nat) (records : List Rec)
    (h7 : records.length = 7) :
    (pf_sink_stop (sinkRunStream
        { pqflow_create ringSize 3 0 with phase := .started } records)).closedFiles
      = [] ∧
    (pf_sink_stop (sinkRunStream
        { pqflow_create ringSize 3 0 with phase := .started } records)).currentGroups
      = [3, 3, 1] := by
  rcases records with _ | ⟨a, _ | ⟨b, _ | ⟨c, _ | ⟨d, _ | ⟨e, _ | ⟨f, _ | ⟨g, rest⟩⟩⟩⟩⟩⟩⟩ <;>
    simp only [List.length_nil, List.length_cons] at h7 <;> try omega
  have hrest : rest = [] := by
    have : rest.length = 0 := by omega
    exact List.length_eq_zero.mp this
  subst hrest
  refine ⟨?_, ?_⟩ <;>
    simp [sinkRunStream, sinkConsumeOne, sinkWriteGroup, pf_sink_stop, sinkCloseFile,
      sinkOpenNextFile, pqflow_create]

/-- Witness for C7 at seven concrete records. -/
theorem claim_C7_stop_drains_witness :
    (pf_sink_stop (sinkRunStream
        { pqflow_create 8 3 0 with phase := .started }
        [[1], [2], [3], [4], [5], [6], [7]])).closedFiles = [] ∧
    (pf_sink_stop (sinkRunStream
        { pqflow_create 8 3 0 with phase := .started }
        [[1], [2], [3], [4], [5], [6], [7]])).currentGroups = [3, 3, 1] :=
  claim_C7_stop_drains 8 [[1], [2], [3], [4], [5], [6], [7]] (by decide)

end ParquetFlow
